import Mathlib

/-!
Verification development for the snooty-ast-to-mdx converter.

This file shallowly embeds the tree-transformation core of the converter
(`src/mdast-to-mdx.ts`) and the references-artifact helpers (`src/utils.ts`)
as executable Lean definitions, and proves/refutes the frozen claims about
them.

Modelling conventions:
* JavaScript strings are modelled as Lean `String` (lists of characters);
  `.length`, `slice`, and regex operations are modelled character-wise.
* JavaScript objects (`Record<string, T>`) and `Map`s are modelled as
  insertion-ordered association lists with last-write-wins update that keeps
  the key's original position, matching JS semantics.
* The side-effecting callbacks (`registerImport`, `emitMDXFile`) are modelled
  in writer style: conversion returns the list of registrations and emissions
  in call order, instead of invoking mutable callbacks.
* `parseFloat` followed by `String(...)` rendering is modelled for plain
  decimal literals (optional sign, digits, optional fraction); exponent forms
  and binary floating-point precision artifacts are outside the model.
* `String.prototype.localeCompare` (used only as a sort comparator on keys)
  is modelled as code-point string order, and `Array.prototype.sort` with it
  as a sort by that order; keys are unique so any correct sort agrees.
-/

namespace SnootyMdx

/-! ### JavaScript-style character/string helpers -/

def asciiLower (c : Char) : Char :=
  if 'A' ≤ c ∧ c ≤ 'Z' then Char.ofNat (c.toNat + 32) else c

def asciiUpper (c : Char) : Char :=
  if 'a' ≤ c ∧ c ≤ 'z' then Char.ofNat (c.toNat - 32) else c

/-- `s.toLowerCase()` (ASCII, which is all the source ever compares). -/
def lowerStr (s : String) : String := ⟨s.data.map asciiLower⟩

/-- JS `part.charAt(0).toUpperCase() + part.slice(1)`. -/
def capitalizeJS (s : String) : String :=
  match s.data with
  | [] => ""
  | c :: cs => ⟨asciiUpper c :: cs⟩

/-- JS `String.prototype.split` on a single-character class: empty segments
    (leading, trailing, between adjacent separators) are preserved. -/
def splitChars (p : Char → Bool) : List Char → List (List Char)
  | [] => [[]]
  | c :: cs =>
    let r := splitChars p cs
    if p c then [] :: r
    else
      match r with
      | [] => [[c]]
      | g :: gs => (c :: g) :: gs

def splitStr (p : Char → Bool) (s : String) : List String :=
  (splitChars p s.data).map (fun g => ⟨g⟩)

/-- `toComponentName` from the source: split a name on `-`/`_` and
    capitalize each part. -/
def toComponentName (name : String) : String :=
  String.join ((splitStr (fun c => c == '-' || c == '_') name).map capitalizeJS)

def isJsWs (c : Char) : Bool :=
  c == ' ' || c == '\t' || c == '\n' || c == '\r'

/-- JS `String.prototype.trim`. -/
def jsTrim (s : String) : String :=
  ⟨((s.data.dropWhile isJsWs).reverse.dropWhile isJsWs).reverse⟩

def isPrefixOfChars : List Char → List Char → Bool
  | [], _ => true
  | _ :: _, [] => false
  | n :: ns, h :: hs => n == h && isPrefixOfChars ns hs

/-- `String.prototype.startsWith`, character-wise. -/
def startsWithStr (s pre : String) : Bool := isPrefixOfChars pre.data s.data

/-- `String.prototype.endsWith`, character-wise. -/
def endsWithStr (s suf : String) : Bool :=
  isPrefixOfChars suf.data.reverse s.data.reverse

/-- `replace(/^\/+/, '')`: strip all leading forward slashes. -/
def dropLeadingSlashes (s : String) : String := ⟨s.data.dropWhile (· == '/')⟩

/-- `replace(/^\.\//, '')`: strip one leading `./`. -/
def dropLeadingDotSlash (s : String) : String :=
  if startsWithStr s "./" then ⟨s.data.drop 2⟩ else s

def collapseBsAux : Bool → List Char → List Char
  | _, [] => []
  | prev, c :: cs =>
    if c == '\\' then
      if prev then collapseBsAux true cs else '/' :: collapseBsAux true cs
    else c :: collapseBsAux false cs

/-- `replace(/\\+/g, '/')`: each maximal run of backslashes becomes one `/`. -/
def collapseBackslashes (s : String) : String := ⟨collapseBsAux false s.data⟩

def replBsDotAux : List Char → List Char
  | '\\' :: '.' :: cs => '.' :: replBsDotAux cs
  | c :: cs => c :: replBsDotAux cs
  | [] => []

/-- `replace(/\\\./g, '.')`: every `\.` pair becomes `.`. -/
def replaceBackslashDot (s : String) : String := ⟨replBsDotAux s.data⟩

/-- JS `String.prototype.indexOf` for a fixed needle. -/
def indexOfSubAux (needle : List Char) : List Char → Option Nat
  | [] => if needle.isEmpty then some 0 else none
  | h :: hs =>
    if isPrefixOfChars needle (h :: hs) then some 0
    else (indexOfSubAux needle hs).map (· + 1)

def indexOfSub (hay needle : String) : Option Nat :=
  indexOfSubAux needle.data hay.data

/-- JS `String.prototype.includes` for a single character. -/
def containsChar (s : String) (c : Char) : Bool := s.data.contains c

def lastIndexOfChar (s : String) (c : Char) : Option Nat :=
  (s.data.reverse.findIdx? (· == c)).map (fun i => s.data.length - 1 - i)

/-- `replace(/\.[^.]+$/, '')`: strip a final `.ext` (ext nonempty, dot-free). -/
def stripLastExt (s : String) : String :=
  match lastIndexOfChar s '.' with
  | none => s
  | some i => if i + 1 < s.data.length then ⟨s.data.take i⟩ else s

/-- Case-insensitive `endsWith`. -/
def endsWithCI (s suffix : String) : Bool :=
  endsWithStr (lowerStr s) (lowerStr suffix)

def dropRightStr (s : String) (n : Nat) : String :=
  ⟨s.data.take (s.data.length - n)⟩

def isAsciiDigit (c : Char) : Bool := '0' ≤ c && c ≤ '9'

def isIdentChar (c : Char) : Bool :=
  ('A' ≤ c && c ≤ 'Z') || ('a' ≤ c && c ≤ 'z') || isAsciiDigit c || c == '_'

/-! ### POSIX path helpers (`path.posix`) -/

/-- `path.posix.dirname` for the well-formed relative/absolute paths the
    converter manipulates. -/
def posixDirname (s : String) : String :=
  let trimmed : List Char := (s.data.reverse.dropWhile (· == '/')).reverse
  match lastIndexOfChar ⟨trimmed⟩ '/' with
  | none => if startsWithStr s "/" then "/" else "."
  | some 0 => "/"
  | some i => ⟨trimmed.take i⟩

/-- Resolve a relative path into its segment list, interpreting `.`, `..`
    and empty segments. -/
def resolveSegs (s : String) : List String :=
  (splitStr (· == '/') s).foldl
    (fun acc seg =>
      if seg == "" || seg == "." then acc
      else if seg == ".." then acc.dropLast
      else acc ++ [seg])
    []

def commonPrefixLen : List String → List String → Nat
  | a :: as_, b :: bs => if a == b then 1 + commonPrefixLen as_ bs else 0
  | _, _ => 0

/-- `path.posix.relative` for relative inputs (both resolved against the same
    working directory, which therefore cancels). -/
def posixRelative (fromP toP : String) : String :=
  let f := resolveSegs fromP
  let t := resolveSegs toP
  let n := commonPrefixLen f t
  let ups : List String := (f.drop n).map (fun _ => "..")
  String.intercalate "/" (ups ++ t.drop n)

/-! ### JSON-ish values for directive options / page options -/

inductive JsValue where
  | str (s : String)
  | num (n : Int)
  | boolean (b : Bool)
  | jsNull
  | arr (items : List JsValue)
  | obj (entries : List (String × JsValue))
deriving Repr

/-- JSON string escaping as used by `JSON.stringify` (the escapes relevant to
    the sources; other control characters are outside the model). -/
def jsonEscape (s : String) : String :=
  ⟨s.data.foldr
    (fun c acc =>
      if c == '\\' then '\\' :: '\\' :: acc
      else if c == '"' then '\\' :: '"' :: acc
      else if c == '\n' then '\\' :: 'n' :: acc
      else if c == '\r' then '\\' :: 'r' :: acc
      else if c == '\t' then '\\' :: 't' :: acc
      else c :: acc)
    []⟩

mutual
def jsonStringify : JsValue → String
  | .str s => "\"" ++ jsonEscape s ++ "\""
  | .num n => toString n
  | .boolean true => "true"
  | .boolean false => "false"
  | .jsNull => "null"
  | .arr items => "[" ++ jsonStringifyList items ++ "]"
  | .obj entries => "\x7b" ++ jsonStringifyObj entries ++ "\x7d"

def jsonStringifyList : List JsValue → String
  | [] => ""
  | [v] => jsonStringify v
  | v :: rest => jsonStringify v ++ "," ++ jsonStringifyList rest

def jsonStringifyObj : List (String × JsValue) → String
  | [] => ""
  | [(k, v)] => "\"" ++ jsonEscape k ++ "\":" ++ jsonStringify v
  | (k, v) :: rest =>
    "\"" ++ jsonEscape k ++ "\":" ++ jsonStringify v ++ "," ++ jsonStringifyObj rest
end

-- JS `String(v)` coercion (array elements joined by commas, objects as
-- `[object Object]`).
mutual
def jsToString : JsValue → String
  | .str s => s
  | .num n => toString n
  | .boolean true => "true"
  | .boolean false => "false"
  | .jsNull => "null"
  | .arr items => jsToStringList items
  | .obj _ => "[object Object]"

def jsToStringList : List JsValue → String
  | [] => ""
  | [v] => jsToString v
  | v :: rest => jsToString v ++ "," ++ jsToStringList rest
end

/-- JS truthiness of an option value. -/
def jsTruthy : JsValue → Bool
  | .str s => !(s == "")
  | .num n => !(n == 0)
  | .boolean b => b
  | .jsNull => false
  | .arr _ => true
  | .obj _ => true

/-! ### `parseFloat` followed by `String(...)`, for plain decimal literals -/

def stripLeadingZeros (ds : List Char) : List Char :=
  match ds.dropWhile (· == '0') with
  | [] => ['0']
  | r => r

def stripTrailingZeros (ds : List Char) : List Char :=
  (ds.reverse.dropWhile (· == '0')).reverse

/-- Models `String(parseFloat(s))` when `parseFloat(s)` is not `NaN`, and
    `none` when it is, for inputs of the form
    `[ws][+|-]digits[.digits]` (possibly followed by ignored garbage).
    Exponent forms and float rounding are outside the model. -/
def jsParseFloatRender (s : String) : Option String :=
  let cs := s.data.dropWhile isJsWs
  let (neg, cs) :=
    match cs with
    | '-' :: rest => (true, rest)
    | '+' :: rest => (false, rest)
    | _ => (false, cs)
  let intPart := cs.takeWhile isAsciiDigit
  let afterInt := cs.dropWhile isAsciiDigit
  let fracPart :=
    match afterInt with
    | '.' :: rest => rest.takeWhile isAsciiDigit
    | _ => []
  if intPart.isEmpty && fracPart.isEmpty then none
  else
    let intDs := stripLeadingZeros intPart
    let fracDs := stripTrailingZeros fracPart
    let isZero := intDs == ['0'] && fracDs.isEmpty
    let body : List Char := intDs ++ (if fracDs.isEmpty then [] else '.' :: fracDs)
    some ⟨if neg && !isZero then '-' :: body else body⟩

/-! ### Insertion-ordered association lists (JS objects and Maps) -/

/-- JS property assignment `m[k] = v`: overwrite in place if the key exists,
    else append at the end. Shared by object spread, `Object.assign`, and
    `Map.set` (JS objects and Maps have unique keys, so replacing the first
    occurrence is exact). -/
def assocSet {α : Type} : List (String × α) → String → α → List (String × α)
  | [], k, v => [(k, v)]
  | e :: rest, k, v => if e.1 == k then (k, v) :: rest else e :: assocSet rest k v

/-- `Object.assign(a, b)` / `{...a, ...b}`. -/
def jsAssign {α : Type} (a b : List (String × α)) : List (String × α) :=
  b.foldl (fun m e => assocSet m e.1 e.2) a

def assocLookup {α : Type} (m : List (String × α)) (k : String) : Option α :=
  (m.find? (fun e => e.1 == k)).map (fun e => e.2)

def assocKeys {α : Type} (m : List (String × α)) : List String := m.map (·.1)

/-! ### Input tree: Snooty AST nodes

A flexible record mirroring the `SnootyNode` interface of the source: a type
discriminator plus the optional fields the converter reads. Absent `children`
and an empty array are observationally identical in every code path of the
source, so `children` is a plain list; all scalar fields are `Option`s
(`none` = property absent / `undefined`). -/

structure SnootyScalars where
  value : Option String := none
  refuri : Option String := none
  language : Option String := none
  lang : Option String := none
  start : Option Int := none
  startat : Option Int := none
  depth : Option Nat := none
  name : Option String := none
  options : Option (List (String × JsValue)) := none
  enumtype : Option String := none
  ordered : Option Bool := none
  label : Option String := none
  htmlId : Option String := none
  ids : Option (List String) := none
  refname : Option String := none
  target : Option String := none
  url : Option String := none
  id : Option String := none
  admonitionType : Option String := none
deriving Repr

inductive SnootyNode : Type where
  | mk (type : String) (scalars : SnootyScalars) (children : List SnootyNode)
      (argument : Option (List SnootyNode ⊕ String)) (term : List SnootyNode)
deriving Repr

def SnootyNode.type : SnootyNode → String
  | .mk t _ _ _ _ => t

def SnootyNode.scalars : SnootyNode → SnootyScalars
  | .mk _ sc _ _ _ => sc

def SnootyNode.children : SnootyNode → List SnootyNode
  | .mk _ _ cs _ _ => cs

def SnootyNode.argument : SnootyNode → Option (List SnootyNode ⊕ String)
  | .mk _ _ _ a _ => a

def SnootyNode.term : SnootyNode → List SnootyNode
  | .mk _ _ _ _ ts => ts

/-- Leaf node with only a type. -/
def leafNode (t : String) : SnootyNode := .mk t {} [] none []

/-- Node with a type and children. -/
def nodeC (t : String) (cs : List SnootyNode) : SnootyNode := .mk t {} cs none []

-- Size measure used for termination of the converter: counts nodes in the
-- tree, ignoring scalar payloads. Each node weighs at least 2 so that the
-- synthetic `root` wrapper built by the include branch stays strictly
-- smaller than the include directive that spawned it.
mutual
def nsize : SnootyNode → Nat
  | .mk _ _ cs arg term => 2 + nsizeList cs + nsizeArg arg + nsizeList term

def nsizeList : List SnootyNode → Nat
  | [] => 0
  | c :: cs => nsize c + nsizeList cs

def nsizeArg : Option (List SnootyNode ⊕ String) → Nat
  | some (.inl cs) => nsizeList cs
  | _ => 0
end

/-! ### Output tree: mdast + MDX nodes -/

inductive AttrVal where
  | str (s : String)
  | expr (code : String)
deriving Repr

/-- `{type: 'mdxJsxAttribute', name, value}`; `value` is either a literal
    string or an `mdxJsxAttributeValueExpression`. -/
structure MdxAttr where
  name : String
  val : AttrVal
deriving Repr

inductive MdastNode : Type where
  | root (children : List MdastNode)
  | text (value : String)
  | paragraph (children : List MdastNode)
  | emphasis (children : List MdastNode)
  | strong (children : List MdastNode)
  | inlineCode (value : String)
  | code (lang : Option String) (value : String)
  | list (ordered : Bool) (startIdx : Option Int) (children : List MdastNode)
  | listItem (children : List MdastNode)
  | link (url : String) (children : List MdastNode)
  | heading (depth : Nat) (children : List MdastNode)
  | thematicBreak
  | lineBreak
  | blockquote (children : List MdastNode)
  | yaml (value : String)
  | html (value : String)
  | mdxjsEsm (value : String)
  | footnoteDefinition (identifier : String) (label : Option String)
      (children : List MdastNode)
  | footnoteReference (identifier : String) (label : Option String)
  | jsxFlow (name : String) (attributes : List MdxAttr) (children : List MdastNode)
  | jsxText (name : String) (attributes : List MdxAttr) (children : List MdastNode)
deriving Repr

mutual
def mdSize : MdastNode → Nat
  | .root cs => 1 + mdSizeList cs
  | .paragraph cs => 1 + mdSizeList cs
  | .emphasis cs => 1 + mdSizeList cs
  | .strong cs => 1 + mdSizeList cs
  | .list _ _ cs => 1 + mdSizeList cs
  | .listItem cs => 1 + mdSizeList cs
  | .link _ cs => 1 + mdSizeList cs
  | .heading _ cs => 1 + mdSizeList cs
  | .blockquote cs => 1 + mdSizeList cs
  | .footnoteDefinition _ _ cs => 1 + mdSizeList cs
  | .jsxFlow _ _ cs => 1 + mdSizeList cs
  | .jsxText _ _ cs => 1 + mdSizeList cs
  | _ => 1

def mdSizeList : List MdastNode → Nat
  | [] => 0
  | c :: cs => mdSize c + mdSizeList cs
end

/-! ### Inline-run normalizer (`wrapInlineRuns`) -/

/-- The `isInline` check of the source. The source additionally tests for
    type strings `'sub'` and `'sup'`, which no output node ever carries (the
    converter emits those as `mdxJsxTextElement`s named `sub`/`sup`), so
    those two tests are vacuous. -/
def isInlineMd : MdastNode → Bool
  | .text _ => true
  | .emphasis _ => true
  | .strong _ => true
  | .inlineCode _ => true
  | .lineBreak => true
  | .jsxText _ _ _ => true
  | .link _ _ => true
  | .footnoteReference _ _ => true
  | _ => false

/-- Whether the JS object for this output node carries a `children` array
    (the source guards its recursion with `Array.isArray(node.children)`). -/
def hasChildrenMd : MdastNode → Bool
  | .root _ => true
  | .paragraph _ => true
  | .emphasis _ => true
  | .strong _ => true
  | .list _ _ _ => true
  | .listItem _ => true
  | .link _ _ => true
  | .heading _ _ => true
  | .blockquote _ => true
  | .footnoteDefinition _ _ _ => true
  | .jsxFlow _ _ _ => true
  | .jsxText _ _ _ => true
  | _ => false

def setChildrenMd (n : MdastNode) (cs : List MdastNode) : MdastNode :=
  match n with
  | .root _ => .root cs
  | .paragraph _ => .paragraph cs
  | .emphasis _ => .emphasis cs
  | .strong _ => .strong cs
  | .list o s _ => .list o s cs
  | .listItem _ => .listItem cs
  | .link u _ => .link u cs
  | .heading d _ => .heading d cs
  | .blockquote _ => .blockquote cs
  | .footnoteDefinition i l _ => .footnoteDefinition i l cs
  | .jsxFlow nm a _ => .jsxFlow nm a cs
  | .jsxText nm a _ => .jsxText nm a cs
  | other => other

def childrenMd : MdastNode → List MdastNode
  | .root cs => cs
  | .paragraph cs => cs
  | .emphasis cs => cs
  | .strong cs => cs
  | .list _ _ cs => cs
  | .listItem cs => cs
  | .link _ cs => cs
  | .heading _ cs => cs
  | .blockquote cs => cs
  | .footnoteDefinition _ _ cs => cs
  | .jsxFlow _ _ cs => cs
  | .jsxText _ _ cs => cs
  | _ => []

/-- `wrapInlineRuns` of the source, with its imperative run-accumulation loop
    expressed recursively: a maximal run of consecutive inline nodes becomes
    one paragraph (whose contents are not further processed, exactly as the
    source pushes the flushed run untouched); every other node has the pass
    applied recursively to its `children` array, if it has one. -/
def wrapInlineRuns (nodes : List MdastNode) : List MdastNode :=
  match nodes with
  | [] => []
  | n :: rest =>
    if h : isInlineMd n then
      let run := (n :: rest).takeWhile isInlineMd
      let rest' := (n :: rest).dropWhile isInlineMd
      .paragraph run :: wrapInlineRuns rest'
    else
      let n' := if hasChildrenMd n then setChildrenMd n (wrapInlineRuns (childrenMd n)) else n
      n' :: wrapInlineRuns rest
termination_by mdSizeList nodes
decreasing_by
  · have hpos : 1 ≤ mdSize c := by cases c <;> simp [mdSize]
    have hle : ∀ l : List MdastNode, mdSizeList (l.dropWhile isInlineMd) ≤ mdSizeList l := by
      intro l
      induction l with
      | nil => simp [List.dropWhile]
      | cons a as ih =>
        by_cases ha : isInlineMd a <;> simp [List.dropWhile, ha, mdSizeList] <;> omega
    simp only [List.dropWhile, h, mdSizeList]
    have := hle cs
    omega
  · have hlt : mdSizeList (childrenMd c) < mdSize c := by
      cases c <;> simp [mdSize, childrenMd, mdSizeList]
    simp only [mdSizeList]
    omega
  · have hpos : 1 ≤ mdSize c := by cases c <;> simp [mdSize]
    simp only [mdSizeList]
    omega

/-! ### YAML frontmatter builder (`objectToYaml`) -/

/-- `/[^A-Za-z0-9_\-.]/.test(str) || str !== str.trim()`. -/
def needsQuotes (s : String) : Bool :=
  s.data.any (fun c => !(isIdentChar c || c == '-' || c == '.')) || !(jsTrim s == s)

def countLeadingSpaces (s : String) : Nat := (s.data.takeWhile (· == ' ')).length

def dropCharsStr (s : String) (n : Nat) : String := ⟨s.data.drop n⟩

def spacesStr (n : Nat) : String := ⟨List.replicate n ' '⟩

def yamlScalarStr (s : String) : String :=
  if needsQuotes s then "\"" ++ jsonEscape s ++ "\"" else s

-- `stringify(value, indent)` of `objectToYaml`: recursively serialise a
-- value, returning a list of YAML lines.
mutual
def yamlStringify (v : JsValue) (indent : Nat) : List String :=
  match v with
  | .jsNull => []
  | .str s => [yamlScalarStr s]
  | .num n => [toString n]
  | .boolean true => ["true"]
  | .boolean false => ["false"]
  | .arr items =>
    if items.isEmpty then ["[]"]
    else yamlArrItems items indent
  | .obj entries =>
    if entries.isEmpty then ["\x7b\x7d"]
    else yamlObjEntries entries indent

def yamlArrItems (items : List JsValue) (indent : Nat) : List String :=
  match items with
  | [] => []
  | item :: rest =>
    let pad := spacesStr indent
    let itemLines := yamlStringify item (indent + 2)
    let cur : List String :=
      match itemLines with
      | [] => []
      | first :: restLines =>
        if restLines.isEmpty && !(startsWithStr first " ") then [pad ++ "- " ++ first]
        else
          let base := countLeadingSpaces first
          (pad ++ "- " ++ dropCharsStr first base) ::
            restLines.map (fun ln =>
              let lead := countLeadingSpaces ln
              pad ++ "  " ++ spacesStr (lead - base) ++ dropCharsStr ln lead)
    cur ++ yamlArrItems rest indent

def yamlObjEntries (entries : List (String × JsValue)) (indent : Nat) : List String :=
  match entries with
  | [] => []
  | (k, v) :: rest =>
    let pad := spacesStr indent
    let childLines := yamlStringify v (indent + 2)
    let keyLine := pad ++ k ++ ":"
    let cur : List String :=
      match childLines with
      | [] => []
      | first :: restLines =>
        if restLines.isEmpty && !(startsWithStr first " ") then [keyLine ++ " " ++ first]
        else
          let base := countLeadingSpaces first
          keyLine ::
            (first :: restLines).map (fun cl =>
              let lead := countLeadingSpaces cl
              pad ++ "  " ++ spacesStr (lead - base) ++ dropCharsStr cl lead)
    cur ++ yamlObjEntries rest indent
end

/-- `objectToYaml`: top-level mapping, no indent. (`Math.max(0, lead - base)`
    is `Nat` truncated subtraction here.) -/
def objectToYaml (obj : List (String × JsValue)) : String :=
  let yamlLines := obj.foldr
    (fun (kv : String × JsValue) acc =>
      let valLines := yamlStringify kv.2 2
      match valLines with
      | [] => acc
      | [single] => (kv.1 ++ ": " ++ single) :: acc
      | _ => (kv.1 ++ ":") :: (valLines ++ acc))
    []
  String.intercalate "\n" yamlLines

/-! ### References artifact (`utils.ts`) -/

structure RefEntry where
  title : String
  url : String
deriving Repr, DecidableEq

structure ReferencesArtifact where
  substitutions : List (String × String)
  refs : List (String × RefEntry)
deriving Repr

/-- `mergeReferences`: spread the base then assign every incoming entry
    (keys present in `add` overwrite). -/
def mergeReferences (base add : ReferencesArtifact) : ReferencesArtifact :=
  ⟨jsAssign base.substitutions add.substitutions, jsAssign base.refs add.refs⟩

/-- Replace every occurrence of the character `c` by the string `r`. -/
def replaceCharStr (c : Char) (r : String) (s : String) : String :=
  ⟨s.data.foldr (fun ch acc => if ch == c then r.data ++ acc else ch :: acc) []⟩

/-- The truncation step of `esc`: `if (str.length > MAX) str = str.slice(0, MAX) + '…'`. -/
def truncateJs (s : String) : String :=
  if s.data.length > 1000 then ⟨s.data.take 1000⟩ ++ "…" else s

/-- The escaping pipeline of `esc` after truncation: the source's five
    sequential global replaces. -/
def escBody (s : String) : String :=
  replaceCharStr '\t' "\\t"
    (replaceCharStr '\n' "\\n"
      (replaceCharStr '\r' "\\r"
        (replaceCharStr '\'' "\\'"
          (replaceCharStr '\\' "\\\\" (truncateJs s)))))

/-- `esc` of `buildReferencesTs`. -/
def esc (s : String) : String := "'" ++ escBody s ++ "'"

/-- Insertion sort by key, modelling `entries.sort(([a],[b]) => a.localeCompare(b))`
    (keys are unique, so any correct sort produces this order). -/
def insertByKey {α : Type} (e : String × α) : List (String × α) → List (String × α)
  | [] => [e]
  | f :: fs => if e.1 ≤ f.1 then e :: f :: fs else f :: insertByKey e fs

def sortByKey {α : Type} : List (String × α) → List (String × α)
  | [] => []
  | e :: es => insertByKey e (sortByKey es)

def jsonStrLit (s : String) : String := "\"" ++ jsonEscape s ++ "\""

def subsLine (kv : String × String) : String :=
  "    " ++ jsonStrLit kv.1 ++ ": " ++ esc kv.2 ++ ","

def refsLine (kv : String × RefEntry) : String :=
  "    " ++ esc kv.1 ++ ": \x7b title: " ++ esc kv.2.title ++ ", url: " ++ esc kv.1 ++ " \x7d,"

/-- `buildReferencesTs`. -/
def buildReferencesTs (artifact : ReferencesArtifact) : String :=
  let subsLines := String.intercalate "\n" ((sortByKey artifact.substitutions).map subsLine)
  let refsLines := String.intercalate "\n" ((sortByKey artifact.refs).map refsLine)
  "export const substitutions = \x7b\n" ++ subsLines ++ "\n\x7d as const;\n" ++
    "export const refs = \x7b\n" ++ refsLines ++ "\n\x7d as const;\n" ++
    "const references = \x7b substitutions, refs \x7d as const;\nexport default references;\n"

/-! ### Import registry (`snootyAstToMdast`'s `includedImports` map) -/

/-- `registerImport` folded over a registration sequence: falsy (empty)
    names or paths are ignored, otherwise `Map.set` semantics. -/
def regsToMap (regs : List (String × String)) : List (String × String) :=
  regs.foldl (fun m e => if e.1 == "" || e.2 == "" then m else assocSet m e.1 e.2) []

def isImagePath (p : String) : Bool :=
  [".png", ".jpg", ".jpeg", ".gif", ".svg", ".webp", ".avif"].any (fun ext => endsWithCI p ext)

/-- Import-block ordering: non-image imports first, image imports last, each
    group in map (first-insertion) order. -/
def orderedImports (m : List (String × String)) : List (String × String) :=
  m.filter (fun e => !isImagePath e.2) ++ m.filter (fun e => isImagePath e.2)

def importLine (e : String × String) : String :=
  "import " ++ e.1 ++ " from '" ++ e.2 ++ "';"

def importBlockValue (m : List (String × String)) : String :=
  String.intercalate "\n" ((orderedImports m).map importLine)

/-! ### Node dispatcher (`convertNode`) and root assembler (`snootyAstToMdast`)

The side-effecting context callbacks are modelled in writer style: a
conversion returns, besides its output nodes, the `registerImport` calls and
the `emitMDXFile` calls it performed, in call order. -/

structure Conv where
  nodes : List MdastNode
  regs : List (String × String)
  emits : List (String × MdastNode)
deriving Repr

def Conv.empty : Conv := ⟨[], [], []⟩

def Conv.lift (ns : List MdastNode) : Conv := ⟨ns, [], []⟩

def Conv.append (a b : Conv) : Conv :=
  ⟨a.nodes ++ b.nodes, a.regs ++ b.regs, a.emits ++ b.emits⟩

/-- Wrap the produced nodes of a conversion into a single parent node. -/
def Conv.wrap1 (f : List MdastNode → MdastNode) (c : Conv) : Conv :=
  ⟨[f c.nodes], c.regs, c.emits⟩

/-- `String(node.name ?? '').toLowerCase()`. -/
def lowerNameOf (sc : SnootyScalars) : String := lowerStr (sc.name.getD "")

/-- `String(child.name).toLowerCase()` (the root-level meta check: an absent
    name stringifies to `"undefined"`). -/
def lowerNameJs (sc : SnootyScalars) : String := lowerStr (sc.name.getD "undefined")

-- `extractPathFromNodes`: depth-first collection of every string `value` in
-- a node list, joined and trimmed.
mutual
def extractParts : SnootyNode → List String
  | .mk _ sc cs _ _ =>
    (match sc.value with | some v => [v] | none => []) ++ extractPartsList cs

def extractPartsList : List SnootyNode → List String
  | [] => []
  | c :: cs => extractParts c ++ extractPartsList cs
end

def extractPathFromNodes (nodes : List SnootyNode) : String :=
  jsTrim (String.join (extractPartsList nodes))

/-- The repeated `Array.isArray(node.argument) ? node.argument.map(a => a.value ?? '').join('') : String(node.argument || '')`. -/
def argTextOf (arg : Option (List SnootyNode ⊕ String)) : String :=
  match arg with
  | some (.inl ns) => String.join (ns.map (fun a => a.scalars.value.getD ""))
  | some (.inr s) => s
  | none => ""

/-- JS truthiness of `node.argument` (arrays are always truthy). -/
def argTruthy (arg : Option (List SnootyNode ⊕ String)) : Bool :=
  match arg with
  | some (.inl _) => true
  | some (.inr s) => !(s == "")
  | none => false

/-- `toNumericAttr` of the figure branch. Non-string, non-number option
    values go through `String(v)` (modelled by `jsToString`). -/
def toNumericAttr (name : String) (v : Option JsValue) : Option MdxAttr :=
  match v with
  | none => none
  | some .jsNull => none
  | some (.str "") => none
  | some (.num n) => some ⟨name, .expr (toString n)⟩
  | some value =>
    let s := jsToString value
    match jsParseFloatRender s with
    | some r => some ⟨name, .expr r⟩
    | none => some ⟨name, .str s⟩

/-- Directive options to JSX attributes: strings literally, everything else
    as a JSON-serialised expression. -/
def optionAttrs (opts : Option (List (String × JsValue))) : List MdxAttr :=
  match opts with
  | none => []
  | some entries =>
    entries.foldr
      (fun (kv : String × JsValue) acc =>
        match kv.2 with
        | .str s => ⟨kv.1, .str s⟩ :: acc
        | other => ⟨kv.1, .expr (jsonStringify other)⟩ :: acc)
      []

/-- `toMdxIncludePath`: rewrite `.rst`/`.txt` to `.mdx`, append `.mdx` when
    no extension matches. -/
def toMdxIncludePath (p : String) : String :=
  let trimmed := jsTrim p
  if endsWithCI trimmed ".rst" || endsWithCI trimmed ".txt" then
    dropRightStr trimmed 4 ++ ".mdx"
  else if !(endsWithCI trimmed ".mdx") then trimmed ++ ".mdx"
  else trimmed

/-- `importPath.replace(/^\.\/+/, '../')`. -/
def dotSlashToParent (s : String) : String :=
  if startsWithStr s "./" then "../" ++ ⟨(s.data.drop 1).dropWhile (· == '/')⟩ else s

/-- The `find`/`filter` pair of the section branch: locate the first
    title-like child and return it together with the remaining children.
    (The source removes the found element by object identity; removing the
    first value occurrence is its value-level reading.) -/
def findTitleSplit : List SnootyNode → Option (SnootyNode × List SnootyNode)
  | [] => none
  | c :: rest =>
    if c.type == "title" || c.type == "heading" then some (c, rest)
    else (findTitleSplit rest).map (fun tr => (tr.1, c :: tr.2))

/-- Lexicographic helper for the termination proofs: first component
    non-increasing, second strictly decreasing. -/
def lexLeHelper {x y b1 b2 : Nat} (hxy : x ≤ y) (hb : b1 < b2) :
    Prod.Lex (fun a c : Nat => a < c) (fun a c : Nat => a < c) (x, b1) (y, b2) :=
  Or.elim (Nat.eq_or_lt_of_le hxy)
    (fun heq => heq ▸ Prod.Lex.right (β := Nat) x hb)
    (fun hlt => Prod.Lex.left _ _ hlt)

/-- Lexicographic helper: first component strictly decreasing. -/
def lexLtHelper {x y b1 b2 : Nat} (hxy : x < y) :
    Prod.Lex (fun a c : Nat => a < c) (fun a c : Nat => a < c) (x, b1) (y, b2) :=
  Prod.Lex.left _ _ hxy

/-- The three directive names dropped when both childless and attributeless. -/
def emptyDirectives : List String := ["toctree", "index", "seealso"]

/-- The asset path of a figure directive: extracted from children or the
    argument, backslash-collapsed, with leading slashes and `./` stripped
    and escaped dots unescaped. -/
def figureAssetPosix (cs : List SnootyNode) (arg : Option (List SnootyNode ⊕ String)) : String :=
  let argText := argTextOf arg
  let extracted := extractPathFromNodes cs
  let pathText := if extracted == "" then argText else extracted
  replaceBackslashDot
    (dropLeadingDotSlash
      (dropLeadingSlashes (dropLeadingSlashes (collapseBackslashes pathText))))

/-- The resolved static-image location: under `<topLevel>/images/` (or
    `images/` at the root), following the source's heuristic. -/
def figureTargetPosix (p : Option String) (assetPosix : String) : String :=
  let importerPosix := collapseBackslashes (p.getD "index.mdx")
  let topLevel :=
    if containsChar importerPosix '/' then (splitStr (· == '/') importerPosix).headD ""
    else ""
  let targetPosix0 := dropLeadingSlashes assetPosix
  match indexOfSub targetPosix0 "images/" with
  | some i =>
    let after : String := ⟨targetPosix0.data.drop (i + 7)⟩
    if topLevel == "" then "images/" ++ after else topLevel ++ "/images/" ++ after
  | none =>
    if startsWithStr assetPosix "images/" then
      let after : String := ⟨assetPosix.data.drop 7⟩
      if topLevel == "" then "images/" ++ after else topLevel ++ "/images/" ++ after
    else if !(containsChar targetPosix0 '/') then
      if topLevel == "" then "images/" ++ targetPosix0
      else topLevel ++ "/images/" ++ targetPosix0
    else targetPosix0

/-- The figure's ESM import path: POSIX-relative from the importer's
    directory, `./`-prefixed when not dot-relative, then `./` rewritten to
    `../` (or `../` prepended). -/
def figureImportPath (p : Option String) (assetPosix : String) : String :=
  let importerPosix := collapseBackslashes (p.getD "index.mdx")
  let importerDir := posixDirname importerPosix
  let importPath0 := posixRelative importerDir (figureTargetPosix p assetPosix)
  let importPath1 := if !(startsWithStr importPath0 ".") then "./" ++ importPath0 else importPath0
  if startsWithStr importPath1 "./" then dotSlashToParent importPath1
  else "../" ++ importPath1

/-- The stable identifier the figure's asset import is bound to. -/
def figureImageIdent (p : Option String) (assetPosix : String) : String :=
  let segsLast := (splitStr (· == '/') (figureTargetPosix p assetPosix)).getLast?.getD ""
  let baseName := if segsLast == "" then "image" else segsLast
  let withoutExt0 := stripLastExt baseName
  let withoutExt := if withoutExt0 == "" then "image" else withoutExt0
  let ident0 : String :=
    ⟨(toComponentName withoutExt).data.map (fun c => if isIdentChar c then c else '_')⟩
  let ident1 := if isAsciiDigit (ident0.data.headD 'x') then "_" ++ ident0 else ident0
  ident1 ++ "Img"

/-- The `<Image .../>` attribute list: `src` expression, optional `alt`
    string, numeric `width`/`height` when present. -/
def figureAttrs (sc : SnootyScalars) (imageIdent : String) : List MdxAttr :=
  let altText :=
    match sc.options with
    | some o =>
      match assocLookup o "alt" with
      | some (.str s) => s
      | _ => ""
    | none => ""
  let altAttrs : List MdxAttr := if altText == "" then [] else [⟨"alt", .str altText⟩]
  let widthRaw := match sc.options with | some o => assocLookup o "width" | none => none
  let heightRaw := match sc.options with | some o => assocLookup o "height" | none => none
  ⟨"src", .expr imageIdent⟩ :: altAttrs
    ++ (toNumericAttr "width" widthRaw).toList
    ++ (toNumericAttr "height" heightRaw).toList

/-- The figure-directive branch of `convertNode`: asset path resolution,
    registration of the asset import, and the `<Image/>` element. -/
def figureConvert (sc : SnootyScalars) (cs : List SnootyNode)
    (arg : Option (List SnootyNode ⊕ String)) (p : Option String) : Conv :=
  let assetPosix := figureAssetPosix cs arg
  if assetPosix == "" then Conv.lift [.html "<!-- figure missing src -->"]
  else
    ⟨[.jsxFlow "Image" (figureAttrs sc (figureImageIdent p assetPosix)) []],
      [(figureImageIdent p assetPosix, figureImportPath p assetPosix)], []⟩

/-- The literalinclude branch of `convertNode`: a code block holding only a
    source comment and a content-not-available marker. -/
def literalincludeConvert (sc : SnootyScalars)
    (arg : Option (List SnootyNode ⊕ String)) : Conv :=
  let pathText := argTextOf arg
  let codeValue :=
    "// Source: " ++ jsTrim pathText ++
      "\n// TODO: Content from external file not available during conversion"
  let langOpt : Option String :=
    match sc.options with
    | some o =>
      match assocLookup o "language" with
      | some (.str s) => some s
      | some other => some (jsToString other)
      | none => none
    | none => none
  Conv.lift [.code langOpt codeValue]

/-- The include branch's content selection: unwrap a sole nested `extract`
    directive, otherwise use the children as-is. -/
def includeContentChildren (cs : List SnootyNode) : List SnootyNode :=
  match cs with
  | [c] =>
    if c.type == "directive" && lowerStr (c.scalars.name.getD "") == "extract" then c.children
    else cs
  | _ => cs

/-- Component name derived from the emitted fragment's base filename:
    CamelCase, dots to underscores, underscore prefix for a digit start. -/
def includeComponentName (emittedPathNormalized : String) : String :=
  let segsLast :=
    (splitStr (· == '/') (collapseBackslashes emittedPathNormalized)).getLast?.getD ""
  let withoutExt := if endsWithCI segsLast ".mdx" then dropRightStr segsLast 4 else segsLast
  let componentName0 : String :=
    ⟨(toComponentName withoutExt).data.map (fun c => if c == '.' then '_' else c)⟩
  if isAsciiDigit (componentName0.data.headD 'x') then "_" ++ componentName0
  else componentName0

/-- Import path of an emitted fragment, relative to the importing file. -/
def includeImportPath (p : Option String) (emittedPathNormalized : String) : String :=
  let importerPosix := collapseBackslashes (p.getD "index.mdx")
  let importerDir := posixDirname importerPosix
  let targetPosix := collapseBackslashes (dropLeadingSlashes emittedPathNormalized)
  let importPath0 := posixRelative importerDir targetPosix
  if !(startsWithStr importPath0 ".") then "./" ++ importPath0 else importPath0

/-- The node-list form of a directive argument (empty when the argument is
    absent or a raw string). -/
def argNodesOf (arg : Option (List SnootyNode ⊕ String)) : List SnootyNode :=
  match arg with
  | some (.inl ns) => ns
  | _ => []

/-- The literal-text form of a directive argument (a single text node when
    the argument is a raw string). -/
def argLiteralNodes (arg : Option (List SnootyNode ⊕ String)) : List MdastNode :=
  match arg with
  | some (.inr s) => [.text s]
  | _ => []

mutual
/-- `convertNode`: the ~40-way dispatch, written as the source's `switch`
    in original case order. The source's duplicated unreachable `case`
    labels (`literal_block`, `bullet_list`, `ordered_list`, `list_item`,
    `title` appear twice in the `switch`; only the first occurrence is
    reachable in JS) are embedded once. -/
def convertNodeW (n : SnootyNode) (d : Nat) (p : Option String) : Conv :=
  match n with
  | .mk t sc cs arg term =>
    if t == "text" then Conv.lift [.text (sc.value.getD "")]
    else if t == "paragraph" then Conv.wrap1 .paragraph (convertChildrenW cs d p)
    else if t == "emphasis" then Conv.wrap1 .emphasis (convertChildrenW cs d p)
    else if t == "strong" then Conv.wrap1 .strong (convertChildrenW cs d p)
    else if t == "literal" then
      let v0 := sc.value.getD ""
      let v :=
        if v0 == "" then
          String.join
            ((cs.filter (fun c => c.type == "text" || c.scalars.value.isSome)).map
              (fun c => c.scalars.value.getD ""))
        else v0
      Conv.lift [.inlineCode v]
    else if t == "code" || t == "literal_block" then
      let v0 := sc.value.getD ""
      let v := if v0 == "" then String.join (cs.map (fun c => c.scalars.value.getD "")) else v0
      Conv.lift [.code (sc.lang <|> sc.language) v]
    else if t == "bullet_list" then Conv.wrap1 (.list false none) (convertChildrenW cs d p)
    else if t == "enumerated_list" || t == "ordered_list" then
      Conv.wrap1 (.list true (some (sc.start.getD 1))) (convertChildrenW cs d p)
    else if t == "list_item" || t == "listItem" then
      Conv.wrap1 .listItem (convertChildrenW cs d p)
    else if t == "list" then
      let ordered :=
        if sc.enumtype.isSome then sc.enumtype.getD "" == "ordered" else sc.ordered.getD false
      let startv : Option Int := if ordered then some ((sc.startat <|> sc.start).getD 1) else none
      Conv.wrap1 (.list ordered startv) (convertChildrenW cs d p)
    else if t == "field_list" then Conv.wrap1 (.jsxFlow "FieldList" []) (convertChildrenW cs d p)
    else if t == "field" then
      let nameAttrs : List MdxAttr :=
        if sc.name.getD "" == "" then [] else [⟨"name", .str (sc.name.getD "")⟩]
      let labelAttrs : List MdxAttr :=
        if sc.label.getD "" == "" then [] else [⟨"label", .str (sc.label.getD "")⟩]
      Conv.wrap1 (.jsxFlow "Field" (nameAttrs ++ labelAttrs)) (convertChildrenW cs d p)
    else if t == "table" || t == "table_head" || t == "table_body" || t == "table_row"
        || t == "table_cell" then
      let nm :=
        if t == "table" then "Table"
        else if t == "table_head" then "TableHead"
        else if t == "table_body" then "TableBody"
        else if t == "table_row" then "TableRow"
        else "TableCell"
      Conv.wrap1 (.jsxFlow nm []) (convertChildrenW cs d p)
    else if t == "reference" then
      if sc.refuri.getD "" == "" then convertChildrenW cs d p
      else Conv.wrap1 (.link (sc.refuri.getD "")) (convertChildrenW cs d p)
    else if t == "section" then
      if hts : (findTitleSplit cs).isSome then
        let tr := (findTitleSplit cs).get hts
        let tc := convertChildrenW tr.1.children d p
        let rc := convertChildrenW tr.2 (d + 1) p
        ⟨.heading (min d 6) tc.nodes :: rc.nodes, tc.regs ++ rc.regs, tc.emits ++ rc.emits⟩
      else convertChildrenW cs (d + 1) p
    else if t == "title" || t == "heading" then
      let c := convertChildrenW cs d p
      ⟨[.heading (sc.depth.getD (min d 6)) c.nodes], c.regs, c.emits⟩
    else if t == "directive" then
      let directiveName := lowerNameOf sc
      if directiveName == "meta" then Conv.empty
      else if directiveName == "figure" then figureConvert sc cs arg p
      else if directiveName == "literalinclude" then literalincludeConvert sc arg
      else if directiveName == "include" || directiveName == "sharedinclude" then
        let emittedPathNormalized := dropLeadingSlashes (toMdxIncludePath (argTextOf arg))
        let res :=
          snootyAstToMdastW (.mk "root" {} (includeContentChildren cs) none [])
            (some (collapseBackslashes emittedPathNormalized))
        let componentName := includeComponentName emittedPathNormalized
        ⟨[.jsxFlow componentName [] []],
          [(componentName, includeImportPath p emittedPathNormalized)],
          res.2 ++ [(emittedPathNormalized, res.1)]⟩
      else
        let componentName := toComponentName (sc.name.getD "Directive")
        let attrs0 := optionAttrs sc.options
        let onlyCond := directiveName == "only" || directiveName == "cond"
        let attrs :=
          if argTruthy arg && onlyCond then
            attrs0 ++ [⟨"expr", .str (jsTrim (argTextOf arg))⟩]
          else attrs0
        let includeArgAsChild := !(argTruthy arg && onlyCond)
        let argConv : Conv :=
          if includeArgAsChild then
            (convertChildrenW (argNodesOf arg) d p).append (Conv.lift (argLiteralNodes arg))
          else Conv.empty
        let bodyConv := convertChildrenW cs d p
        let children := argConv.nodes ++ bodyConv.nodes
        if emptyDirectives.contains directiveName && children.isEmpty && attrs.isEmpty then
          ⟨[], argConv.regs ++ bodyConv.regs, argConv.emits ++ bodyConv.emits⟩
        else
          ⟨[.jsxFlow componentName attrs children], argConv.regs ++ bodyConv.regs,
            argConv.emits ++ bodyConv.emits⟩
    else if t == "ref_role" || t == "doc" then
      let url := (sc.url <|> sc.refuri <|> sc.target).getD ""
      let c := convertChildrenW cs d p
      if url == "" then c
      else ⟨[.jsxText "Ref" [⟨"url", .str url⟩] c.nodes], c.regs, c.emits⟩
    else if t == "role" then
      let componentName := toComponentName (sc.name.getD "Role")
      let attrs : List MdxAttr :=
        if sc.target.getD "" == "" then [] else [⟨"target", .str (sc.target.getD "")⟩]
      let c := convertChildrenW cs d p
      let children :=
        if c.nodes.isEmpty then
          if sc.value.getD "" == "" then [] else [.text (sc.value.getD "")]
        else c.nodes
      ⟨[.jsxText componentName attrs children], c.regs, c.emits⟩
    else if t == "superscript" then Conv.wrap1 (.jsxText "sup" []) (convertChildrenW cs d p)
    else if t == "subscript" then Conv.wrap1 (.jsxText "sub" []) (convertChildrenW cs d p)
    else if t == "definitionList" then
      Conv.wrap1 (.jsxFlow "DefinitionList" []) (convertChildrenW cs d p)
    else if t == "definitionListItem" then
      let tc := convertChildrenW term d p
      let dc := convertChildrenW cs d p
      ⟨[.jsxFlow "DefinitionListItem" [] (tc.nodes ++ dc.nodes)], tc.regs ++ dc.regs,
        tc.emits ++ dc.emits⟩
    else if t == "line_block" then Conv.wrap1 .paragraph (lineBlockW cs d p)
    else if t == "line" then Conv.lift [.text (sc.value.getD "")]
    else if t == "title_reference" then Conv.wrap1 .emphasis (convertChildrenW cs d p)
    else if t == "footnote" then
      let identifier := (sc.id <|> sc.name).getD ""
      let c := convertChildrenW cs d p
      if identifier == "" then c
      else ⟨[.footnoteDefinition identifier sc.name c.nodes], c.regs, c.emits⟩
    else if t == "footnote_reference" then
      let identifier := sc.id.getD ""
      if identifier == "" then Conv.empty
      else Conv.lift [.footnoteReference identifier sc.refname]
    else if t == "named_reference" then Conv.empty
    else if t == "substitution_definition" then Conv.empty
    else if t == "substitution_reference" || t == "substitution" then
      let r0 := sc.refname.getD ""
      let refname := if r0 == "" then sc.name.getD "" else r0
      let c := convertChildrenW cs d p
      let attrs : List MdxAttr := if refname == "" then [] else [⟨"name", .str refname⟩]
      ⟨[.jsxText "SubstitutionReference" attrs c.nodes], c.regs, c.emits⟩
    else if t == "directive_argument" then convertChildrenW cs d p
    else if t == "transition" then Conv.lift [.thematicBreak]
    else if t == "card-group" then
      Conv.wrap1 (.jsxFlow "CardGroup" (optionAttrs sc.options)) (convertChildrenW cs d p)
    else if t == "cta-banner" then
      Conv.wrap1 (.jsxFlow "CTABanner" (optionAttrs sc.options)) (convertChildrenW cs d p)
    else if t == "tabs" then Conv.wrap1 (.jsxFlow "Tabs" []) (convertChildrenW cs d p)
    else if t == "only" then
      let condition := jsTrim (argTextOf arg)
      Conv.wrap1 (.jsxFlow "Only" [⟨"condition", .str condition⟩]) (convertChildrenW cs d p)
    else if t == "method-selector" then
      Conv.wrap1 (.jsxFlow "MethodSelector" []) (convertChildrenW cs d p)
    else if t == "target" then
      let ids0 := sc.htmlId.toList ++ sc.ids.getD []
      let ids := if ids0.isEmpty then sc.name.toList else ids0
      if ids.isEmpty then Conv.empty
      else Conv.lift (ids.map (fun i => .jsxFlow "span" [⟨"id", .str i⟩] []))
    else if t == "inline_target" || t == "target_identifier" then
      let ids := sc.ids.getD [] ++ sc.htmlId.toList
      if ids.isEmpty then Conv.empty
      else Conv.lift (ids.map (fun i => .jsxFlow "span" [⟨"id", .str i⟩] []))
    else if t == "block_quote" then Conv.wrap1 .blockquote (convertChildrenW cs d p)
    else if t == "admonition" then
      let admonitionName := (sc.name <|> sc.admonitionType).getD "note"
      Conv.wrap1 (.jsxFlow (toComponentName admonitionName) []) (convertChildrenW cs d p)
    else if t == "comment" || t == "comment_block" then Conv.empty
    else if cs.isEmpty then Conv.lift [.html ("<!-- unsupported: " ++ t ++ " -->")]
    else convertChildrenW cs d p
termination_by (nsize n, 2)
decreasing_by
  all_goals refine lexLeHelper ?_ (by omega)
  all_goals
    first
    | -- plain child-list recursions (children, argument, term, line_block)
      (simp only [nsize, nsizeList, nsizeArg]; omega)
    | -- the two section recursions: splitting off the title child shrinks
      (have hft : ∀ (l : List SnootyNode) (tr' : SnootyNode × List SnootyNode),
           findTitleSplit l = some tr' → nsize tr'.1 + nsizeList tr'.2 = nsizeList l := by
         intro l
         induction l with
         | nil => intro tr' hx; simp [findTitleSplit] at hx
         | cons a as ih =>
           intro tr' hx
           simp only [findTitleSplit] at hx
           split at hx
           · cases hx; simp only [nsizeList]
           · cases hfa : findTitleSplit as with
             | none => rw [hfa] at hx; simp at hx
             | some tr2 =>
               rw [hfa] at hx
               simp only [Option.map_some', Option.some.injEq] at hx
               subst hx
               have := ih tr2 hfa
               simp only [nsizeList]
               omega
       have h1 := hft _ _ (Option.some_get hts).symm
       have key1 : ∀ (x : SnootyNode × List SnootyNode) (csn an tn : Nat),
           nsize x.1 + nsizeList x.2 = csn →
           1 + nsizeList x.1.children ≤ 2 + csn + an + tn := by
         intro x csn an tn hx
         rcases x with ⟨x1, x2⟩
         cases x1
         simp only [SnootyNode.children, nsize] at hx ⊢
         omega
       have key2 : ∀ (x : SnootyNode × List SnootyNode) (csn an tn : Nat),
           nsize x.1 + nsizeList x.2 = csn →
           1 + nsizeList x.2 ≤ 2 + csn + an + tn := by
         intro x csn an tn hx
         have h2 : 2 ≤ nsize x.1 := by
           cases hx1 : x.1
           simp only [nsize]
           omega
         omega
       simp only [nsize]
       first
       | exact key1 _ _ _ _ h1
       | exact key2 _ _ _ _ h1)
    | -- the generic directive fallback's argument children
      (have key : ∀ (a : Option (List SnootyNode ⊕ String)) (csn tn : Nat),
           1 + nsizeList (argNodesOf a) ≤ 2 + csn + nsizeArg a + tn := by
         intro a csn tn
         have han : nsizeList (argNodesOf a) ≤ nsizeArg a := by
           rcases a with _ | (ns | s)
           · simp [argNodesOf, nsizeArg, nsizeList]
           · simp [argNodesOf, nsizeArg]
           · simp [argNodesOf, nsizeArg, nsizeList]
         omega
       simp only [nsize]
       exact key _ _ _)
    | -- include/sharedinclude: the synthetic root over the content children
      (have hic : ∀ l : List SnootyNode,
           nsizeList (includeContentChildren l) ≤ nsizeList l := by
         intro l
         simp only [includeContentChildren]
         split
         · split
           · rename_i c hcnd
             cases c with
             | mk a b cc e f =>
               simp only [SnootyNode.children, nsizeList, nsize]
               omega
           · exact Nat.le_refl _
         · exact Nat.le_refl _
       simp only [nsize, nsizeArg, nsizeList, Nat.add_zero]
       refine le_trans (Nat.add_le_add_left (hic _) 2) ?_
       omega)

/-- `convertChildren`: convert each node, flatten, drop nulls. -/
def convertChildrenW (ns : List SnootyNode) (d : Nat) (p : Option String) : Conv :=
  match ns with
  | [] => Conv.empty
  | c :: rest => (convertNodeW c d p).append (convertChildrenW rest d p)
termination_by (1 + nsizeList ns, 0)
decreasing_by
  all_goals
    have hsz : ∀ m : SnootyNode, 2 ≤ nsize m := by
      intro m; cases m; simp only [nsize]; omega
  all_goals refine lexLtHelper ?_
  all_goals simp only [nsizeList]
  · omega
  · have := hsz c; omega

/-- The `line_block` flatMap: converted lines with a hard break after every
    line except the last. -/
def lineBlockW (ns : List SnootyNode) (d : Nat) (p : Option String) : Conv :=
  match ns with
  | [] => Conv.empty
  | ln :: rest =>
    let c := convertChildrenW [ln] d p
    if rest.isEmpty then c
    else
      let r := lineBlockW rest d p
      ⟨c.nodes ++ [.lineBreak] ++ r.nodes, c.regs ++ r.regs, c.emits ++ r.emits⟩
termination_by (1 + nsizeList ns, 1)
decreasing_by
  all_goals
    have hsz : ∀ m : SnootyNode, 2 ≤ nsize m := by
      intro m; cases m; simp only [nsize]; omega
  · refine lexLeHelper ?_ (by omega)
    simp only [nsizeList]
    omega
  · refine lexLtHelper ?_
    have h2 : ∀ (a : SnootyNode) (l : List SnootyNode),
        1 + nsizeList l < 1 + nsizeList (a :: l) := by
      intro a l
      have := hsz a
      simp only [nsizeList]
      omega
    exact h2 _ _

/-- The root-children loop of `snootyAstToMdast`: hoists the options of
    root-level meta directives (in order) and converts everything else at
    depth 1. -/
def rootPassW (ns : List SnootyNode) (p : Option String) :
    Conv × List (List (String × JsValue)) :=
  match ns with
  | [] => (Conv.empty, [])
  | c :: rest =>
    if c.type == "directive" && lowerNameJs c.scalars == "meta" && c.scalars.options.isSome then
      let r := rootPassW rest p
      (r.1, c.scalars.options.getD [] :: r.2)
    else
      let cc := convertNodeW c 1 p
      let r := rootPassW rest p
      (cc.append r.1, r.2)
termination_by (1 + nsizeList ns, 0)
decreasing_by
  all_goals
    have hsz : ∀ m : SnootyNode, 2 ≤ nsize m := by
      intro m; cases m; simp only [nsize]; omega
  all_goals refine lexLtHelper ?_
  all_goals simp only [nsizeList]
  · have := hsz c; omega
  · omega
  · have := hsz c; omega

/-- `snootyAstToMdast`: root assembly (frontmatter, import block, content,
    inline-run normalization). Returns the produced root together with the
    emitted fragment files. -/
def snootyAstToMdastW (root : SnootyNode) (p : Option String) :
    MdastNode × List (String × MdastNode) :=
  let r := rootPassW root.children p
  let metaFromDirectives := r.2.foldl jsAssign []
  let pageOptions := root.scalars.options.getD []
  let frontmatterObj := jsAssign pageOptions metaFromDirectives
  let importMap := regsToMap r.1.regs
  let fmNodes : List MdastNode :=
    if frontmatterObj.isEmpty then [] else [.yaml (objectToYaml frontmatterObj)]
  let importNodes : List MdastNode :=
    if importMap.isEmpty then [] else [.mdxjsEsm (importBlockValue importMap)]
  let children := fmNodes ++ importNodes ++ r.1.nodes
  (.root (wrapInlineRuns children), r.1.emits)
termination_by (nsize root, 1)
decreasing_by
  refine lexLeHelper ?_ (by omega)
  cases root with
  | mk t sc cs arg term => simp only [SnootyNode.children, nsize]; omega
end

/-! ### Predicates used by the claims -/

-- All heading nodes in an output tree have depth at most 6.
mutual
def headsLE : MdastNode → Bool
  | .root cs => headsLEList cs
  | .paragraph cs => headsLEList cs
  | .emphasis cs => headsLEList cs
  | .strong cs => headsLEList cs
  | .list _ _ cs => headsLEList cs
  | .listItem cs => headsLEList cs
  | .link _ cs => headsLEList cs
  | .heading dep cs => dep ≤ 6 && headsLEList cs
  | .blockquote cs => headsLEList cs
  | .footnoteDefinition _ _ cs => headsLEList cs
  | .jsxFlow _ _ cs => headsLEList cs
  | .jsxText _ _ cs => headsLEList cs
  | _ => true

def headsLEList : List MdastNode → Bool
  | [] => true
  | c :: cs => headsLE c && headsLEList cs
end

-- No `title`/`heading` node anywhere in an input tree carries an explicit
-- `depth` field.
mutual
def noExplicitDepth : SnootyNode → Bool
  | .mk t sc cs arg term =>
    (!(t == "title" || t == "heading") || sc.depth.isNone) && noExplicitDepthList cs
      && noExplicitDepthArg arg && noExplicitDepthList term

def noExplicitDepthList : List SnootyNode → Bool
  | [] => true
  | c :: cs => noExplicitDepth c && noExplicitDepthList cs

def noExplicitDepthArg : Option (List SnootyNode ⊕ String) → Bool
  | some (.inl ns) => noExplicitDepthList ns
  | _ => true
end

/-- A directive node the dispatcher's meta branch drops. -/
def isMetaDirective (c : SnootyNode) : Bool :=
  c.type == "directive" && lowerNameOf c.scalars == "meta"

/-- The root-level hoisting guard of `snootyAstToMdast`. -/
def isMetaWithOptions (c : SnootyNode) : Bool :=
  c.type == "directive" && lowerNameJs c.scalars == "meta" && c.scalars.options.isSome

/-- The input node types the dispatcher recognizes (every `case` label of the
    source's `switch`, the duplicated dead labels included). -/
def knownTypes : List String :=
  ["text", "paragraph", "emphasis", "strong", "literal", "code", "literal_block",
   "bullet_list", "enumerated_list", "ordered_list", "list_item", "listItem", "list",
   "field_list", "field", "table", "table_head", "table_body", "table_row", "table_cell",
   "reference", "section", "title", "heading", "directive", "ref_role", "doc", "role",
   "superscript", "subscript", "definitionList", "definitionListItem", "line_block",
   "line", "title_reference", "footnote", "footnote_reference", "named_reference",
   "substitution_definition", "substitution_reference", "substitution",
   "directive_argument", "transition", "card-group", "cta-banner", "tabs", "only",
   "method-selector", "target", "inline_target", "target_identifier", "block_quote",
   "admonition", "comment", "comment_block"]

/-- Character-level specification of the escaping performed by `esc`
    (stated for comparison with the source's sequential replaces). -/
def escCharSpec (c : Char) : String :=
  if c == '\\' then "\\\\"
  else if c == '\'' then "\\'"
  else if c == '\r' then "\\r"
  else if c == '\n' then "\\n"
  else if c == '\t' then "\\t"
  else ⟨[c]⟩

/-- The value of the last valid (nonempty name and path) registration of a
    key in a registration sequence. -/
def lastValidLookup (regs : List (String × String)) (k : String) : Option String :=
  (((regs.filter (fun e => !(e.1 == "") && !(e.2 == ""))).reverse.find?
      (fun e => e.1 == k)).map (fun e => e.2))

/-- The heading-clamp invariant of the claims: every heading in the produced
    nodes, and in every emitted fragment tree, has depth at most 6. -/
def ConvOK (c : Conv) : Prop :=
  headsLEList c.nodes = true ∧ ∀ e ∈ c.emits, headsLE e.2 = true

/-! ## Helper lemmas -/

theorem assocLookup_nil {α : Type} (k : String) : assocLookup ([] : List (String × α)) k = none := rfl

theorem assocLookup_cons {α : Type} (e : String × α) (m : List (String × α)) (k : String) :
    assocLookup (e :: m) k = if e.1 == k then some e.2 else assocLookup m k := by
  by_cases h : e.1 == k
  · simp [assocLookup, List.find?, h]
  · simp only [Bool.not_eq_true] at h
    simp [assocLookup, List.find?, h]

theorem assocLookup_assocSet_self {α : Type} (m : List (String × α)) (k : String) (v : α) :
    assocLookup (assocSet m k v) k = some v := by
  induction m with
  | nil => simp [assocSet, assocLookup_cons]
  | cons e rest ih =>
    by_cases he : e.1 = k
    · simp [assocSet, he, assocLookup_cons]
    · have heb : (e.1 == k) = false := by simp [he]
      simp [assocSet, heb, assocLookup_cons, ih]

theorem assocLookup_assocSet_ne {α : Type} (m : List (String × α)) (k k' : String) (v : α)
    (h : k ≠ k') : assocLookup (assocSet m k' v) k = assocLookup m k := by
  induction m with
  | nil =>
    have : (k' == k) = false := by simp; exact fun hx => h hx.symm
    simp [assocSet, assocLookup_cons, this, assocLookup_nil]
  | cons e rest ih =>
    by_cases he : e.1 = k'
    · have hkb : (k' == k) = false := by simp; exact fun hx => h hx.symm
      simp [assocSet, he, assocLookup_cons, hkb]
    · have heb : (e.1 == k') = false := by simp [he]
      simp [assocSet, heb, assocLookup_cons, ih]

theorem assocKeys_assocSet_of_mem {α : Type} (m : List (String × α)) (k : String) (v : α)
    (h : k ∈ assocKeys m) : assocKeys (assocSet m k v) = assocKeys m := by
  induction m with
  | nil => simp [assocKeys] at h
  | cons e rest ih =>
    simp only [assocKeys, List.map_cons, List.mem_cons] at h
    by_cases he : e.1 = k
    · simp [assocSet, he, assocKeys]
    · have heb : (e.1 == k) = false := by simp [he]
      have hmem : k ∈ assocKeys rest := by
        rcases h with h | h
        · exact absurd h.symm he
        · exact h
      have h2 := ih hmem
      simp only [assocKeys] at h2
      simp [assocSet, heb, assocKeys, h2]

theorem assocKeys_assocSet_of_not_mem {α : Type} (m : List (String × α)) (k : String) (v : α)
    (h : k ∉ assocKeys m) : assocKeys (assocSet m k v) = assocKeys m ++ [k] := by
  induction m with
  | nil => simp [assocSet, assocKeys]
  | cons e rest ih =>
    simp only [assocKeys, List.map_cons, List.mem_cons] at h
    push_neg at h
    have heb : (e.1 == k) = false := by
      simp only [beq_eq_false_iff_ne, ne_eq]
      exact fun hx => h.1 hx.symm
    have h2 := ih h.2
    simp only [assocKeys] at h2
    simp [assocSet, heb, assocKeys, h2]

theorem assocKeys_assocSet_nodup {α : Type} (m : List (String × α)) (k : String) (v : α)
    (h : (assocKeys m).Nodup) : (assocKeys (assocSet m k v)).Nodup := by
  by_cases hm : k ∈ assocKeys m
  · rw [assocKeys_assocSet_of_mem m k v hm]
    exact h
  · rw [assocKeys_assocSet_of_not_mem m k v hm]
    simp only [List.nodup_append, List.nodup_singleton, true_and]
    refine ⟨h, ?_⟩
    intro a ha
    simp only [List.mem_singleton]
    intro hak
    subst hak
    exact hm ha

theorem assocLookup_eq_none_of_not_mem {α : Type} (m : List (String × α)) (k : String)
    (h : k ∉ assocKeys m) : assocLookup m k = none := by
  induction m with
  | nil => rfl
  | cons e rest ih =>
    simp only [assocKeys, List.map_cons, List.mem_cons] at h
    push_neg at h
    have heb : (e.1 == k) = false := by
      simp only [beq_eq_false_iff_ne, ne_eq]
      exact fun hx => h.1 hx.symm
    simp [assocLookup_cons, heb, ih h.2]

theorem assocLookup_jsAssign {α : Type} (b : List (String × α)) (a : List (String × α))
    (k : String) (hb : (assocKeys b).Nodup) :
    assocLookup (jsAssign a b) k = (assocLookup b k).or (assocLookup a k) := by
  induction b generalizing a with
  | nil => simp [jsAssign, assocLookup_nil]
  | cons e rest ih =>
    simp only [assocKeys, List.map_cons, List.nodup_cons] at hb
    have hstep : jsAssign a (e :: rest) = jsAssign (assocSet a e.1 e.2) rest := by
      simp [jsAssign]
    rw [hstep, ih _ hb.2]
    by_cases hk : k = e.1
    · have hnone : assocLookup rest k = none := by
        refine assocLookup_eq_none_of_not_mem rest k ?_
        rw [hk]
        intro hmem
        exact hb.1 (by simpa [assocKeys] using hmem)
      have hself : assocLookup (assocSet a e.1 e.2) k = some e.2 := by
        rw [hk]
        exact assocLookup_assocSet_self a e.1 e.2
      have heb : (e.1 == k) = true := by simp [hk]
      simp [assocLookup_cons, heb, hnone, hself, Option.or]
    · have heb : (e.1 == k) = false := by
        simp only [beq_eq_false_iff_ne, ne_eq]
        exact fun hx => hk hx.symm
      simp [assocLookup_cons, heb, assocLookup_assocSet_ne a k e.1 e.2 hk]

theorem mem_assocKeys_jsAssign {α : Type} (b : List (String × α)) (a : List (String × α))
    (k : String) (h : k ∈ assocKeys (jsAssign a b)) :
    k ∈ assocKeys a ∨ k ∈ assocKeys b := by
  induction b generalizing a with
  | nil => exact Or.inl h
  | cons e rest ih =>
    have hstep : jsAssign a (e :: rest) = jsAssign (assocSet a e.1 e.2) rest := by
      simp [jsAssign]
    rw [hstep] at h
    rcases ih _ h with hx | hx
    · by_cases hm : e.1 ∈ assocKeys a
      · rw [assocKeys_assocSet_of_mem a e.1 e.2 hm] at hx
        exact Or.inl hx
      · rw [assocKeys_assocSet_of_not_mem a e.1 e.2 hm] at hx
        rcases List.mem_append.mp hx with hy | hy
        · exact Or.inl hy
        · simp only [List.mem_singleton] at hy
          subst hy
          exact Or.inr (by simp [assocKeys])
    · refine Or.inr ?_
      show k ∈ assocKeys (e :: rest)
      simp only [assocKeys, List.map_cons]
      exact List.mem_cons_of_mem _ (by simpa [assocKeys] using hx)

/-! ## C8: registry merge -/

/-- C8: for every pair of registry artifacts A (existing) and B (incoming),
    `mergeReferences A B` maps every substitution/ref key of B to B's value,
    every key only in A to A's value, and contains no key outside A and B.
    (B's key lists are unique-keyed, as JS `Record`s are.) -/
theorem mergeReferences_spec (A B : ReferencesArtifact) (k : String)
    (hsub : (assocKeys B.substitutions).Nodup) (href : (assocKeys B.refs).Nodup) :
    assocLookup (mergeReferences A B).substitutions k =
      (assocLookup B.substitutions k).or (assocLookup A.substitutions k) ∧
    assocLookup (mergeReferences A B).refs k =
      (assocLookup B.refs k).or (assocLookup A.refs k) ∧
    (k ∈ assocKeys (mergeReferences A B).substitutions →
      k ∈ assocKeys A.substitutions ∨ k ∈ assocKeys B.substitutions) ∧
    (k ∈ assocKeys (mergeReferences A B).refs →
      k ∈ assocKeys A.refs ∨ k ∈ assocKeys B.refs) := by
  refine ⟨?_, ?_, ?_, ?_⟩
  · exact assocLookup_jsAssign B.substitutions A.substitutions k hsub
  · exact assocLookup_jsAssign B.refs A.refs k href
  · exact mem_assocKeys_jsAssign B.substitutions A.substitutions k
  · exact mem_assocKeys_jsAssign B.refs A.refs k

/-- Witness for C8 at a concrete merge: key "release" is taken from the
    incoming artifact. -/
theorem mergeReferences_spec_witness :
    assocLookup (mergeReferences
        ⟨[("release", "1.0"), ("old", "x")], [("u", ⟨"T", "u"⟩)]⟩
        ⟨[("release", "2.0")], []⟩).substitutions "release" =
      (assocLookup ([("release", "2.0")] : List (String × String)) "release").or
        (assocLookup ([("release", "1.0"), ("old", "x")] : List (String × String)) "release") ∧
    assocLookup (mergeReferences
        ⟨[("release", "1.0"), ("old", "x")], [("u", ⟨"T", "u"⟩)]⟩
        ⟨[("release", "2.0")], []⟩).refs "release" =
      (assocLookup ([] : List (String × RefEntry)) "release").or
        (assocLookup ([("u", (⟨"T", "u"⟩ : RefEntry))] : List (String × RefEntry)) "release") ∧
    ("release" ∈ assocKeys (mergeReferences
        ⟨[("release", "1.0"), ("old", "x")], [("u", ⟨"T", "u"⟩)]⟩
        ⟨[("release", "2.0")], []⟩).substitutions →
      "release" ∈ assocKeys ([("release", "1.0"), ("old", "x")] : List (String × String)) ∨
      "release" ∈ assocKeys ([("release", "2.0")] : List (String × String))) ∧
    ("release" ∈ assocKeys (mergeReferences
        ⟨[("release", "1.0"), ("old", "x")], [("u", ⟨"T", "u"⟩)]⟩
        ⟨[("release", "2.0")], []⟩).refs →
      "release" ∈ assocKeys ([("u", (⟨"T", "u"⟩ : RefEntry))] : List (String × RefEntry)) ∨
      "release" ∈ assocKeys ([] : List (String × RefEntry))) :=
  mergeReferences_spec
    ⟨[("release", "1.0"), ("old", "x")], [("u", ⟨"T", "u"⟩)]⟩
    ⟨[("release", "2.0")], []⟩ "release" (by decide) (by decide)

/-! ## C9: rendered references artifact -/

theorem replaceCharStr_data (c : Char) (r : String) (l : List Char) :
    (replaceCharStr c r ⟨l⟩).data =
      l.foldr (fun ch acc => (if ch == c then r.data else [ch]) ++ acc) [] := by
  simp only [replaceCharStr]
  induction l with
  | nil => rfl
  | cons x rest ih =>
    simp only [List.foldr_cons]
    by_cases h : (x == c) = true
    · rw [if_pos h, if_pos h, ih]
    · rw [if_neg h, if_neg h, ih]
      rfl

theorem foldr_repl_init (c : Char) (r : String) (l : List Char) (i : List Char) :
    l.foldr (fun ch acc => if ch == c then r.data ++ acc else ch :: acc) i =
      l.foldr (fun ch acc => if ch == c then r.data ++ acc else ch :: acc) [] ++ i := by
  induction l with
  | nil => simp
  | cons x rest ih =>
    simp only [List.foldr_cons]
    by_cases h : (x == c) = true
    · rw [if_pos h, if_pos h, ih, List.append_assoc]
    · rw [if_neg h, if_neg h, ih]
      rfl

theorem replaceCharStr_append (c : Char) (r : String) (a b : String) :
    replaceCharStr c r (a ++ b) = replaceCharStr c r a ++ replaceCharStr c r b := by
  rcases a with ⟨as_⟩
  rcases b with ⟨bs⟩
  show replaceCharStr c r ⟨as_ ++ bs⟩ = replaceCharStr c r ⟨as_⟩ ++ replaceCharStr c r ⟨bs⟩
  have h1 : replaceCharStr c r ⟨as_ ++ bs⟩ =
      ⟨(as_ ++ bs).foldr (fun ch acc => if ch == c then r.data ++ acc else ch :: acc) []⟩ := rfl
  have h2 : replaceCharStr c r ⟨as_⟩ ++ replaceCharStr c r ⟨bs⟩ =
      (⟨as_.foldr (fun ch acc => if ch == c then r.data ++ acc else ch :: acc) [] ++
        bs.foldr (fun ch acc => if ch == c then r.data ++ acc else ch :: acc) []⟩ : String) := rfl
  rw [h1, h2]
  congr 1
  rw [List.foldr_append]
  exact foldr_repl_init c r as_ _

theorem escChain_single (x : Char) :
    replaceCharStr '\t' "\\t" (replaceCharStr '\n' "\\n" (replaceCharStr '\r' "\\r"
      (replaceCharStr '\'' "\\'" (replaceCharStr '\\' "\\\\" ⟨[x]⟩)))) = escCharSpec x := by
  have hone : ∀ (c : Char) (r : String), replaceCharStr c r ⟨[x]⟩ =
      if (x == c) = true then r else ⟨[x]⟩ := by
    intro c r
    by_cases h : (x == c) = true
    · rw [if_pos h]
      show (⟨if (x == c) = true then r.data ++ [] else [x]⟩ : String) = r
      rw [if_pos h, List.append_nil]
    · rw [if_neg h]
      show (⟨if (x == c) = true then r.data ++ [] else [x]⟩ : String) = ⟨[x]⟩
      rw [if_neg h]
  by_cases h1 : x = '\\'
  · subst h1; rfl
  · by_cases h2 : x = '\''
    · subst h2; rfl
    · by_cases h3 : x = '\r'
      · subst h3; rfl
      · by_cases h4 : x = '\n'
        · subst h4; rfl
        · by_cases h5 : x = '\t'
          · subst h5; rfl
          · have b1 : (x == '\\') = false := by simp [h1]
            have b2 : (x == '\'') = false := by simp [h2]
            have b3 : (x == '\r') = false := by simp [h3]
            have b4 : (x == '\n') = false := by simp [h4]
            have b5 : (x == '\t') = false := by simp [h5]
            simp only [hone, b1, b2, b3, b4, b5, Bool.false_eq_true, if_false, escCharSpec]

theorem escChain_eq (l : List Char) :
    replaceCharStr '\t' "\\t" (replaceCharStr '\n' "\\n" (replaceCharStr '\r' "\\r"
      (replaceCharStr '\'' "\\'" (replaceCharStr '\\' "\\\\" ⟨l⟩)))) =
    ⟨l.foldr (fun ch acc => (escCharSpec ch).data ++ acc) []⟩ := by
  induction l with
  | nil => rfl
  | cons x rest ih =>
    have hsplit : (⟨x :: rest⟩ : String) = (⟨[x]⟩ : String) ++ ⟨rest⟩ := rfl
    rw [hsplit, replaceCharStr_append, replaceCharStr_append, replaceCharStr_append,
      replaceCharStr_append, replaceCharStr_append, escChain_single, ih]
    rcases hspec : escCharSpec x with ⟨specData⟩
    show (⟨specData ++ rest.foldr (fun ch acc => (escCharSpec ch).data ++ acc) []⟩ : String) = _
    simp only [List.foldr_cons, hspec]

theorem escBody_eq_map (s : String) :
    escBody s = ⟨(truncateJs s).data.foldr (fun ch acc => (escCharSpec ch).data ++ acc) []⟩ := by
  have h0 : escBody s =
      replaceCharStr '\t' "\\t" (replaceCharStr '\n' "\\n" (replaceCharStr '\r' "\\r"
        (replaceCharStr '\'' "\\'" (replaceCharStr '\\' "\\\\" ⟨(truncateJs s).data⟩)))) := rfl
  rw [h0, escChain_eq]

theorem escCharSpec_no_raw (ch : Char) (c : Char) (h : c ∈ (escCharSpec ch).data) :
    ¬(c = '\n' ∨ c = '\r' ∨ c = '\t') := by
  by_cases h1 : ch = '\\'
  · subst h1
    simp [escCharSpec] at h
    subst h; decide
  · by_cases h2 : ch = '\''
    · subst h2
      simp [escCharSpec] at h
      rcases h with h | h
      · subst h; decide
      · subst h; decide
    · by_cases h3 : ch = '\r'
      · subst h3
        simp [escCharSpec] at h
        rcases h with h | h
        · subst h; decide
        · subst h; decide
      · by_cases h4 : ch = '\n'
        · subst h4
          simp [escCharSpec] at h
          rcases h with h | h
          · subst h; decide
          · subst h; decide
        · by_cases h5 : ch = '\t'
          · subst h5
            simp [escCharSpec] at h
            rcases h with h | h
            · subst h; decide
            · subst h; decide
          · have b1 : (ch == '\\') = false := by simp [h1]
            have b2 : (ch == '\'') = false := by simp [h2]
            have b3 : (ch == '\r') = false := by simp [h3]
            have b4 : (ch == '\n') = false := by simp [h4]
            have b5 : (ch == '\t') = false := by simp [h5]
            simp only [escCharSpec, b1, b2, b3, b4, b5, Bool.false_eq_true, if_false,
              List.mem_singleton] at h
            subst h
            rintro (hx | hx | hx)
            · exact h4 hx
            · exact h3 hx
            · exact h5 hx

theorem escBody_no_raw (s : String) (c : Char) (h : c ∈ (escBody s).data) :
    ¬(c = '\n' ∨ c = '\r' ∨ c = '\t') := by
  rw [escBody_eq_map] at h
  revert h
  show c ∈ ((truncateJs s).data.foldr (fun ch acc => (escCharSpec ch).data ++ acc) []) → _
  induction (truncateJs s).data with
  | nil => intro h; simp at h
  | cons x rest ih =>
    intro h
    simp only [List.foldr_cons, List.mem_append] at h
    rcases h with h | h
    · exact escCharSpec_no_raw x c h
    · exact ih h

theorem mem_insertByKey {α : Type} (e x : String × α) (l : List (String × α))
    (h : x ∈ insertByKey e l) : x = e ∨ x ∈ l := by
  induction l with
  | nil => simpa [insertByKey] using h
  | cons f fs ih =>
    simp only [insertByKey] at h
    split at h
    · rcases List.mem_cons.mp h with h | h
      · exact Or.inl h
      · exact Or.inr h
    · rcases List.mem_cons.mp h with h | h
      · exact Or.inr (by simp [h])
      · rcases ih h with h | h
        · exact Or.inl h
        · exact Or.inr (List.mem_cons_of_mem _ h)

theorem insertByKey_perm {α : Type} (e : String × α) (l : List (String × α)) :
    List.Perm (insertByKey e l) (e :: l) := by
  induction l with
  | nil => rfl
  | cons f fs ih =>
    simp only [insertByKey]
    split
    · rfl
    · exact (List.Perm.cons f ih).trans (List.Perm.swap e f fs)

theorem pairwise_insertByKey {α : Type} (e : String × α) (l : List (String × α))
    (h : l.Pairwise (fun a b => a.1 ≤ b.1)) :
    (insertByKey e l).Pairwise (fun a b => a.1 ≤ b.1) := by
  induction l with
  | nil => simp [insertByKey]
  | cons f fs ih =>
    simp only [List.pairwise_cons] at h
    simp only [insertByKey]
    split
    · rename_i hle
      refine List.Pairwise.cons ?_ (List.Pairwise.cons h.1 h.2)
      intro x hx
      rcases List.mem_cons.mp hx with hx | hx
      · subst hx; exact hle
      · exact le_trans hle (h.1 x hx)
    · rename_i hgt
      refine List.Pairwise.cons ?_ (ih h.2)
      intro x hx
      rcases mem_insertByKey e x fs hx with hx | hx
      · subst hx
        exact le_of_not_le hgt
      · exact h.1 x hx

theorem sortByKey_perm {α : Type} (l : List (String × α)) : List.Perm (sortByKey l) l := by
  induction l with
  | nil => rfl
  | cons e es ih =>
    simp only [sortByKey]
    exact (insertByKey_perm e (sortByKey es)).trans (List.Perm.cons e ih)

theorem sortByKey_pairwise {α : Type} (l : List (String × α)) :
    (sortByKey l).Pairwise (fun a b => a.1 ≤ b.1) := by
  induction l with
  | nil => simp [sortByKey]
  | cons e es ih => exact pairwise_insertByKey e (sortByKey es) ih

theorem sorted_nodupKeys_eq {α : Type} :
    ∀ (l1 l2 : List (String × α)), l1.Pairwise (fun a b => a.1 ≤ b.1) →
      l2.Pairwise (fun a b => a.1 ≤ b.1) → (assocKeys l1).Nodup →
      List.Perm l1 l2 → l1 = l2 := by
  intro l1
  induction l1 with
  | nil =>
    intro l2 _ _ _ hperm
    exact hperm.nil_eq
  | cons a t1 ih =>
    intro l2 h1 h2 hnd hperm
    cases l2 with
    | nil =>
      have := hperm.eq_nil
      simp at this
    | cons b t2 =>
      simp only [List.pairwise_cons] at h1 h2
      simp only [assocKeys, List.map_cons, List.nodup_cons] at hnd
      have hab : a = b := by
        have hamem : a ∈ b :: t2 := hperm.mem_iff.mp (List.mem_cons_self a t1)
        rcases List.mem_cons.mp hamem with h | h
        · exact h
        · have hba : b.1 ≤ a.1 := h2.1 a h
          have hbmem : b ∈ a :: t1 := hperm.symm.mem_iff.mp (List.mem_cons_self b t2)
          rcases List.mem_cons.mp hbmem with hb | hb
          · exact hb.symm
          · have hab2 : a.1 ≤ b.1 := h1.1 b hb
            have heq : a.1 = b.1 := le_antisymm hab2 hba
            exact absurd (heq ▸ (List.mem_map_of_mem (fun x => x.1) hb)) hnd.1
      subst hab
      have htail : List.Perm t1 t2 := List.Perm.cons_inv hperm
      rw [ih t2 h1.2 h2.2 hnd.2 htail]

theorem sortByKey_eq_of_perm {α : Type} (l1 l2 : List (String × α))
    (hperm : List.Perm l1 l2) (hnd : (assocKeys l1).Nodup) : sortByKey l1 = sortByKey l2 := by
  refine sorted_nodupKeys_eq (sortByKey l1) (sortByKey l2) (sortByKey_pairwise l1)
    (sortByKey_pairwise l2) ?_ ?_
  · have hp : List.Perm (assocKeys (sortByKey l1)) (assocKeys l1) := by
      simp only [assocKeys]
      exact (sortByKey_perm l1).map (fun x => x.1)
    exact hp.nodup_iff.mpr hnd
  · exact ((sortByKey_perm l1).trans hperm).trans (sortByKey_perm l2).symm

/-- C9: `buildReferencesTs` renders substitution and ref entries sorted by
    key; `esc` escapes backslash, quote, CR, LF and TAB character-wise
    (each special character becomes its two-character escape, so the escaped
    body has no raw CR/LF/TAB left) after truncating values beyond 1000
    characters with a `…` marker; and two artifacts holding the same
    key/value sets (in any order) render to byte-identical text. -/
theorem buildReferencesTs_spec (a b : ReferencesArtifact)
    (hperm1 : List.Perm a.substitutions b.substitutions)
    (hperm2 : List.Perm a.refs b.refs)
    (hnds : (assocKeys a.substitutions).Nodup) (hndr : (assocKeys a.refs).Nodup) :
    ((sortByKey a.substitutions).Pairwise (fun x y => x.1 ≤ y.1)) ∧
    ((sortByKey a.refs).Pairwise (fun x y => x.1 ≤ y.1)) ∧
    (∀ s : String, esc s = "'" ++ escBody s ++ "'" ∧
      escBody s = ⟨(truncateJs s).data.foldr (fun ch acc => (escCharSpec ch).data ++ acc) []⟩) ∧
    (∀ s : String, 1000 < s.data.length → truncateJs s = ⟨s.data.take 1000⟩ ++ "…") ∧
    (∀ s : String, ∀ ch ∈ (escBody s).data, ¬(ch = '\n' ∨ ch = '\r' ∨ ch = '\t')) ∧
    buildReferencesTs a = buildReferencesTs b := by
  refine ⟨sortByKey_pairwise _, sortByKey_pairwise _, ?_, ?_, ?_, ?_⟩
  · intro s
    exact ⟨rfl, escBody_eq_map s⟩
  · intro s h
    unfold truncateJs
    rw [if_pos]
    exact h
  · intro s ch h
    exact escBody_no_raw s ch h
  · have h1 : sortByKey a.substitutions = sortByKey b.substitutions :=
      sortByKey_eq_of_perm _ _ hperm1 hnds
    have h2 : sortByKey a.refs = sortByKey b.refs :=
      sortByKey_eq_of_perm _ _ hperm2 hndr
    simp [buildReferencesTs, h1, h2]

/-- Witness for C9 at two permuted two-entry artifacts. -/
theorem buildReferencesTs_spec_witness :
    ((sortByKey [("b", "2"), ("a", "1")]).Pairwise (fun x y => x.1 ≤ y.1)) ∧
    ((sortByKey ([] : List (String × RefEntry))).Pairwise (fun x y => x.1 ≤ y.1)) ∧
    (∀ s : String, esc s = "'" ++ escBody s ++ "'" ∧
      escBody s = ⟨(truncateJs s).data.foldr (fun ch acc => (escCharSpec ch).data ++ acc) []⟩) ∧
    (∀ s : String, 1000 < s.data.length → truncateJs s = ⟨s.data.take 1000⟩ ++ "…") ∧
    (∀ s : String, ∀ ch ∈ (escBody s).data, ¬(ch = '\n' ∨ ch = '\r' ∨ ch = '\t')) ∧
    buildReferencesTs ⟨[("b", "2"), ("a", "1")], []⟩ =
      buildReferencesTs ⟨[("a", "1"), ("b", "2")], []⟩ :=
  buildReferencesTs_spec ⟨[("b", "2"), ("a", "1")], []⟩ ⟨[("a", "1"), ("b", "2")], []⟩
    (by decide) (by decide) (by decide) (by decide)


/-! ## C10: import registry -/

theorem foldl_regs_nodup (regs : List (String × String)) :
    ∀ (m : List (String × String)), (assocKeys m).Nodup →
      (assocKeys (regs.foldl
        (fun m e => if e.1 == "" || e.2 == "" then m else assocSet m e.1 e.2) m)).Nodup := by
  induction regs with
  | nil => intro m hm; exact hm
  | cons e rest ih =>
    intro m hm
    simp only [List.foldl_cons]
    by_cases hval : (e.1 == "" || e.2 == "") = true
    · rw [if_pos hval]
      exact ih m hm
    · rw [if_neg hval]
      exact ih _ (assocKeys_assocSet_nodup m e.1 e.2 hm)

theorem find?_append_singleton (k : String) (xs : List (String × String))
    (y : String × String) :
    (xs ++ [y]).find? (fun q => q.1 == k) =
      ((xs.find? (fun q => q.1 == k)).or (if y.1 == k then some y else none)) := by
  induction xs with
  | nil =>
    cases hy : (y.1 == k) <;> simp [List.find?, hy, Option.or]
  | cons z zs ihz =>
    simp only [List.cons_append, List.find?]
    cases hz : (z.1 == k)
    · simpa [hz] using ihz
    · simp [Option.or]

theorem foldl_regs_lookup (regs : List (String × String)) :
    ∀ (m : List (String × String)) (k : String),
      assocLookup (regs.foldl
        (fun m e => if e.1 == "" || e.2 == "" then m else assocSet m e.1 e.2) m) k =
      (lastValidLookup regs k).or (assocLookup m k) := by
  induction regs with
  | nil =>
    intro m k
    simp [lastValidLookup, Option.or]
  | cons e rest ih =>
    intro m k
    simp only [List.foldl_cons]
    by_cases hval : (e.1 == "" || e.2 == "") = true
    · rw [if_pos hval]
      rw [ih m k]
      have hfe : (!(e.1 == "") && !(e.2 == "")) = false := by
        rcases Bool.or_eq_true_iff.mp hval with h | h
        · simp [h]
        · simp [h]
      have hfilter : (e :: rest).filter (fun q => !(q.1 == "") && !(q.2 == "")) =
          rest.filter (fun q => !(q.1 == "") && !(q.2 == "")) := by
        simp only [List.filter_cons, hfe]
        simp
      simp only [lastValidLookup, hfilter]
    · rw [if_neg hval]
      rw [ih _ k]
      have hval2 : ¬ e.1 = "" ∧ ¬ e.2 = "" := by simpa using hval
      have hvalid : (!(e.1 == "") && !(e.2 == "")) = true := by simp [hval2.1, hval2.2]
      have hfilter : (e :: rest).filter (fun q => !(q.1 == "") && !(q.2 == "")) =
          e :: rest.filter (fun q => !(q.1 == "") && !(q.2 == "")) := by
        simp only [List.filter_cons, hvalid]
        simp
      simp only [lastValidLookup, hfilter, List.reverse_cons, find?_append_singleton]
      cases hfind : (rest.filter (fun q => !(q.1 == "") && !(q.2 == ""))).reverse.find?
          (fun q => q.1 == k) with
      | none =>
        simp only [hfind, Option.map_none', Option.none_or]
        by_cases hk : (e.1 == k) = true
        · have hke : k = e.1 := (eq_of_beq hk).symm
          rw [hke, assocLookup_assocSet_self]
          simp [hk, Option.or]
        · have hkne : k ≠ e.1 := fun hx => hk (by simp [hx])
          rw [assocLookup_assocSet_ne m k e.1 e.2 hkne]
          simp only [hk]
          simp [Option.or]
      | some x =>
        simp [Option.or]

theorem orderedImports_perm (m : List (String × String)) :
    List.Perm (orderedImports m) m := by
  unfold orderedImports
  have h2 : m.filter (fun e => isImagePath e.2) =
      m.filter (fun e => !(!isImagePath e.2)) := by
    apply List.filter_congr
    intro x _
    simp
  rw [h2]
  exact List.filter_append_perm (fun e => !isImagePath e.2) m

theorem orderedImports_keys_nodup (m : List (String × String))
    (hm : (assocKeys m).Nodup) : (assocKeys (orderedImports m)).Nodup := by
  have hp : List.Perm (assocKeys (orderedImports m)) (assocKeys m) := by
    simp only [assocKeys]
    exact (orderedImports_perm m).map (fun x => x.1)
  exact hp.nodup_iff.mpr hm

/-- C10: within one top-level conversion, the import registry built by
    `registerImport` from the registration sequence `regs` keeps at most one
    entry per component identifier (its key list is duplicate-free); looking
    up an identifier returns the path of its last valid registration
    (last-write-wins); appending one more registration either leaves the map
    unchanged (falsy name or path) or performs an in-place `Map.set`;
    re-registering an identifier already present preserves the key order
    (its original first-insertion position); the emitted import order is a
    permutation of the registry with duplicate-free identifiers, listing all
    non-image imports first and then all image imports, each group in
    first-registration order; and the import block renders one line per
    ordered entry. -/
theorem importRegistry_spec (regs : List (String × String)) (n p k : String) :
    (assocKeys (regsToMap regs)).Nodup
    ∧ assocLookup (regsToMap regs) k = lastValidLookup regs k
    ∧ regsToMap (regs ++ [(n, p)]) =
        (if n == "" || p == "" then regsToMap regs else assocSet (regsToMap regs) n p)
    ∧ (n ∈ assocKeys (regsToMap regs) →
        assocKeys (assocSet (regsToMap regs) n p) = assocKeys (regsToMap regs))
    ∧ List.Perm (orderedImports (regsToMap regs)) (regsToMap regs)
    ∧ (assocKeys (orderedImports (regsToMap regs))).Nodup
    ∧ orderedImports (regsToMap regs) =
        (regsToMap regs).filter (fun e => !isImagePath e.2)
          ++ (regsToMap regs).filter (fun e => isImagePath e.2)
    ∧ importBlockValue (regsToMap regs) =
        String.intercalate "\n" ((orderedImports (regsToMap regs)).map importLine) := by
  have hnodup : (assocKeys (regsToMap regs)).Nodup := by
    unfold regsToMap
    exact foldl_regs_nodup regs [] (by simp [assocKeys])
  refine ⟨hnodup, ?_, ?_, ?_, orderedImports_perm _, orderedImports_keys_nodup _ hnodup, rfl, rfl⟩
  · unfold regsToMap
    rw [foldl_regs_lookup regs [] k]
    cases lastValidLookup regs k <;> simp [assocLookup, List.find?, Option.or]
  · unfold regsToMap
    rw [List.foldl_append]
    simp [List.foldl_cons]
  · intro h
    exact assocKeys_assocSet_of_mem _ n p h

/-- C10 witness: registering `Img` twice keeps one entry whose path is the
    last registration, at the original first-insertion position; the image
    asset import is ordered after the non-image import. -/
theorem importRegistry_spec_witness :
    assocLookup (regsToMap [("Img", "./a.png"), ("Comp", "./c"), ("Img", "./b.png")]) "Img"
        = some "./b.png"
      ∧ orderedImports (regsToMap [("Img", "./a.png"), ("Comp", "./c"), ("Img", "./b.png")])
        = [("Comp", "./c"), ("Img", "./b.png")]
      ∧ ("Img" ∈
            assocKeys (regsToMap [("Img", "./a.png"), ("Comp", "./c"), ("Img", "./b.png")]) →
          assocKeys (assocSet
              (regsToMap [("Img", "./a.png"), ("Comp", "./c"), ("Img", "./b.png")])
              "Img" "./b.png")
            = assocKeys (regsToMap [("Img", "./a.png"), ("Comp", "./c"), ("Img", "./b.png")])) := by
  have h := importRegistry_spec
    [("Img", "./a.png"), ("Comp", "./c"), ("Img", "./b.png")] "Img" "./b.png" "Img"
  refine ⟨?_, ?_, h.2.2.2.1⟩
  · rw [h.2.1]
    rfl
  · rfl

/-- C1: converting the directive {name: "figure", argument: "/images/pic.png",
    options: {alt: "A pic", width: "100"}} while producing `guide/page.mdx`
    registers exactly one import, `PicImg` (the identifier derived from the
    asset base filename `pic.png`), whose path equals the POSIX-relative path
    from `guide/page.mdx` to `guide/images/pic.png`, and returns exactly one
    flow embedded component named `Image` with a `src` expression attribute
    bound to `PicImg`, a string attribute `alt` = "A pic", and a `width`
    expression attribute rendering the number 100; no file is emitted. -/
theorem figure_directive_spec (d : Nat) :
    convertNodeW
      (.mk "directive"
        { name := some "figure",
          options := some [("alt", JsValue.str "A pic"), ("width", JsValue.str "100")] }
        [] (some (Sum.inr "/images/pic.png")) [])
      d (some "guide/page.mdx")
    = ⟨[.jsxFlow "Image"
          [⟨"src", .expr "PicImg"⟩, ⟨"alt", .str "A pic"⟩, ⟨"width", .expr "100"⟩] []],
        [("PicImg", posixRelative "guide/page.mdx" "guide/images/pic.png")], []⟩ := by
  rw [convertNodeW.eq_def]
  rfl

/-- C1 witness: the theorem's conclusion at `d = 1`, with the relative path
    evaluated: the registered import path is `../images/pic.png`. -/
theorem figure_directive_spec_witness :
    convertNodeW
      (.mk "directive"
        { name := some "figure",
          options := some [("alt", JsValue.str "A pic"), ("width", JsValue.str "100")] }
        [] (some (Sum.inr "/images/pic.png")) [])
      1 (some "guide/page.mdx")
    = ⟨[.jsxFlow "Image"
          [⟨"src", .expr "PicImg"⟩, ⟨"alt", .str "A pic"⟩, ⟨"width", .expr "100"⟩] []],
        [("PicImg", "../images/pic.png")], []⟩ := by
  rw [figure_directive_spec 1]
  rfl

/-- C7: converting a node whose type is none of the recognized kinds never
    fails: with no children it becomes exactly one `html` marker node naming
    the unknown type, and with children it becomes its converted children
    spliced in place (the node itself is transparent, producing no wrapper). -/
theorem unknown_type_default (t : String) (sc : SnootyScalars) (cs : List SnootyNode)
    (arg : Option (List SnootyNode ⊕ String)) (tm : List SnootyNode) (d : Nat) (p : Option String)
    (h : t ∉ knownTypes) :
    convertNodeW (.mk t sc cs arg tm) d p =
      (if cs.isEmpty then Conv.lift [.html ("<!-- unsupported: " ++ t ++ " -->")]
       else convertChildrenW cs d p) := by
  have hne : ∀ s, s ∈ knownTypes → (t == s) = false := by
    intro s hs
    simp only [beq_eq_false_iff_ne, ne_eq]
    exact fun he => h (he ▸ hs)
  have hk0 : (t == "text") = false := hne "text" (by decide)
  have hk1 : (t == "paragraph") = false := hne "paragraph" (by decide)
  have hk2 : (t == "emphasis") = false := hne "emphasis" (by decide)
  have hk3 : (t == "strong") = false := hne "strong" (by decide)
  have hk4 : (t == "literal") = false := hne "literal" (by decide)
  have hk5 : (t == "code") = false := hne "code" (by decide)
  have hk6 : (t == "literal_block") = false := hne "literal_block" (by decide)
  have hk7 : (t == "bullet_list") = false := hne "bullet_list" (by decide)
  have hk8 : (t == "enumerated_list") = false := hne "enumerated_list" (by decide)
  have hk9 : (t == "ordered_list") = false := hne "ordered_list" (by decide)
  have hk10 : (t == "list_item") = false := hne "list_item" (by decide)
  have hk11 : (t == "listItem") = false := hne "listItem" (by decide)
  have hk12 : (t == "list") = false := hne "list" (by decide)
  have hk13 : (t == "field_list") = false := hne "field_list" (by decide)
  have hk14 : (t == "field") = false := hne "field" (by decide)
  have hk15 : (t == "table") = false := hne "table" (by decide)
  have hk16 : (t == "table_head") = false := hne "table_head" (by decide)
  have hk17 : (t == "table_body") = false := hne "table_body" (by decide)
  have hk18 : (t == "table_row") = false := hne "table_row" (by decide)
  have hk19 : (t == "table_cell") = false := hne "table_cell" (by decide)
  have hk20 : (t == "reference") = false := hne "reference" (by decide)
  have hk21 : (t == "section") = false := hne "section" (by decide)
  have hk22 : (t == "title") = false := hne "title" (by decide)
  have hk23 : (t == "heading") = false := hne "heading" (by decide)
  have hk24 : (t == "directive") = false := hne "directive" (by decide)
  have hk25 : (t == "ref_role") = false := hne "ref_role" (by decide)
  have hk26 : (t == "doc") = false := hne "doc" (by decide)
  have hk27 : (t == "role") = false := hne "role" (by decide)
  have hk28 : (t == "superscript") = false := hne "superscript" (by decide)
  have hk29 : (t == "subscript") = false := hne "subscript" (by decide)
  have hk30 : (t == "definitionList") = false := hne "definitionList" (by decide)
  have hk31 : (t == "definitionListItem") = false := hne "definitionListItem" (by decide)
  have hk32 : (t == "line_block") = false := hne "line_block" (by decide)
  have hk33 : (t == "line") = false := hne "line" (by decide)
  have hk34 : (t == "title_reference") = false := hne "title_reference" (by decide)
  have hk35 : (t == "footnote") = false := hne "footnote" (by decide)
  have hk36 : (t == "footnote_reference") = false := hne "footnote_reference" (by decide)
  have hk37 : (t == "named_reference") = false := hne "named_reference" (by decide)
  have hk38 : (t == "substitution_definition") = false := hne "substitution_definition" (by decide)
  have hk39 : (t == "substitution_reference") = false := hne "substitution_reference" (by decide)
  have hk40 : (t == "substitution") = false := hne "substitution" (by decide)
  have hk41 : (t == "directive_argument") = false := hne "directive_argument" (by decide)
  have hk42 : (t == "transition") = false := hne "transition" (by decide)
  have hk43 : (t == "card-group") = false := hne "card-group" (by decide)
  have hk44 : (t == "cta-banner") = false := hne "cta-banner" (by decide)
  have hk45 : (t == "tabs") = false := hne "tabs" (by decide)
  have hk46 : (t == "only") = false := hne "only" (by decide)
  have hk47 : (t == "method-selector") = false := hne "method-selector" (by decide)
  have hk48 : (t == "target") = false := hne "target" (by decide)
  have hk49 : (t == "inline_target") = false := hne "inline_target" (by decide)
  have hk50 : (t == "target_identifier") = false := hne "target_identifier" (by decide)
  have hk51 : (t == "block_quote") = false := hne "block_quote" (by decide)
  have hk52 : (t == "admonition") = false := hne "admonition" (by decide)
  have hk53 : (t == "comment") = false := hne "comment" (by decide)
  have hk54 : (t == "comment_block") = false := hne "comment_block" (by decide)
  rw [convertNodeW.eq_def]
  simp only [hk0, hk1, hk2, hk3, hk4, hk5, hk6, hk7, hk8, hk9, hk10, hk11, hk12, hk13, hk14, hk15, hk16, hk17, hk18, hk19, hk20, hk21, hk22, hk23, hk24, hk25, hk26, hk27, hk28, hk29, hk30, hk31, hk32, hk33, hk34, hk35, hk36, hk37, hk38, hk39, hk40, hk41, hk42, hk43, hk44, hk45, hk46, hk47, hk48, hk49, hk50, hk51, hk52, hk53, hk54, Bool.or_self, Bool.or_false, Bool.false_or, Bool.false_eq_true, if_false]

/-- C7 witness: `"mystery"` is not a recognized kind; a childless `mystery`
    node converts to exactly the unsupported-marker node. -/
theorem unknown_type_default_witness :
    "mystery" ∉ knownTypes
      ∧ convertNodeW (.mk "mystery" {} [] none []) 1 none
          = Conv.lift [.html "<!-- unsupported: mystery -->"] := by
  refine ⟨by decide, ?_⟩
  rw [unknown_type_default "mystery" {} [] none [] 1 none (by decide)]
  rfl

/-- C5: converting a section node at depth `d` when a title-like child
    (type `title` or `heading`) exists: exactly one heading node is produced,
    its depth is `d` clamped to at most 6 (`min d 6`), it appears immediately
    before the converted remaining children, the heading's content is the
    title child's children converted at depth `d`, and each remaining child
    is converted at depth `d + 1`. -/
theorem section_heading_spec (sc : SnootyScalars) (cs : List SnootyNode)
    (arg : Option (List SnootyNode ⊕ String)) (tm : List SnootyNode) (d : Nat) (p : Option String)
    (tr : SnootyNode × List SnootyNode) (h : findTitleSplit cs = some tr) :
    convertNodeW (.mk "section" sc cs arg tm) d p =
      ⟨.heading (min d 6) (convertChildrenW tr.1.children d p).nodes
          :: (convertChildrenW tr.2 (d + 1) p).nodes,
        (convertChildrenW tr.1.children d p).regs ++ (convertChildrenW tr.2 (d + 1) p).regs,
        (convertChildrenW tr.1.children d p).emits
          ++ (convertChildrenW tr.2 (d + 1) p).emits⟩ := by
  rw [convertNodeW.eq_def]
  simp [h]

/-- C5 witness: a section with a title child and a paragraph child, converted
    at depth 10, yields exactly one heading of clamped depth 6 followed by
    the converted paragraph. -/
theorem section_heading_spec_witness :
    convertNodeW
        (.mk "section" {} [.mk "title" {} [] none [], .mk "paragraph" {} [] none []] none [])
        10 none
      = ⟨[.heading 6 [], .paragraph []], [], []⟩ := by
  rw [section_heading_spec {} [.mk "title" {} [] none [], .mk "paragraph" {} [] none []]
    none [] 10 none (.mk "title" {} [] none [], [.mk "paragraph" {} [] none []]) rfl]
  have h0 : ∀ d : Nat, convertChildrenW ([] : List SnootyNode) d none = Conv.empty := by
    intro d
    rw [convertChildrenW.eq_def]
  have h2 : convertNodeW (.mk "paragraph" {} [] none []) 11 none = ⟨[.paragraph []], [], []⟩ := by
    rw [convertNodeW.eq_def]
    simp [h0, Conv.wrap1, Conv.empty]
  have h3 : convertChildrenW [SnootyNode.mk "paragraph" {} [] none []] (10 + 1) none
      = ⟨[.paragraph []], [], []⟩ := by
    rw [convertChildrenW.eq_def]
    simp [h2, h0, Conv.append, Conv.empty]
  simp [SnootyNode.children, h0, h3, Conv.empty]

theorem data_append_str (a b : String) : (a ++ b).data = a.data ++ b.data := rfl

theorem lowerStr_append (a b : String) : lowerStr (a ++ b) = lowerStr a ++ lowerStr b :=
  congrArg String.mk (by simp [data_append_str, lowerStr])

theorem isPrefixOfChars_self_append (l r : List Char) : isPrefixOfChars l (l ++ r) = true := by
  induction l with
  | nil => rfl
  | cons c cs ih => simp [isPrefixOfChars, ih]

theorem endsWithStr_append_self (a b : String) : endsWithStr (a ++ b) b = true := by
  unfold endsWithStr
  rw [data_append_str, List.reverse_append]
  exact isPrefixOfChars_self_append _ _

/-- The rewritten include path always carries the fragment extension
    `.mdx` (case-insensitively). -/
theorem toMdxIncludePath_mdx (q : String) : endsWithCI (toMdxIncludePath q) ".mdx" = true := by
  unfold toMdxIncludePath
  by_cases h1 : (endsWithCI (jsTrim q) ".rst" || endsWithCI (jsTrim q) ".txt") = true
  · rw [if_pos h1]
    unfold endsWithCI
    rw [lowerStr_append]
    exact endsWithStr_append_self _ _
  · rw [if_neg h1]
    by_cases h2 : (!(endsWithCI (jsTrim q) ".mdx")) = true
    · rw [if_pos h2]
      unfold endsWithCI
      rw [lowerStr_append]
      exact endsWithStr_append_self _ _
    · rw [if_neg h2]
      simpa using h2

/-- C2: converting an `include`/`sharedinclude` directive rewrites the path
    argument to the fragment path (`.rst`/`.txt` becomes `.mdx`, `.mdx` is
    appended when absent — the second conjunct), strips leading slashes,
    unwraps a sole nested `extract` directive (`includeContentChildren`),
    converts that content as an independent root whose current output path is
    the fragment's path, emits exactly one file for this directive — the
    fragment path with the converted tree, after the nested conversion's own
    emissions — registers exactly one import binding the component name
    derived from the fragment's base filename to a path relative to the
    file that imports it, and returns exactly one embedded-component flow element
    with that name, no attributes and no children. -/
theorem include_directive_spec (sc : SnootyScalars) (cs : List SnootyNode)
    (arg : Option (List SnootyNode ⊕ String)) (tm : List SnootyNode) (d : Nat) (p : Option String)
    (h : lowerNameOf sc = "include" ∨ lowerNameOf sc = "sharedinclude") :
    convertNodeW (.mk "directive" sc cs arg tm) d p =
      ⟨[.jsxFlow (includeComponentName (dropLeadingSlashes (toMdxIncludePath (argTextOf arg))))
          [] []],
        [(includeComponentName (dropLeadingSlashes (toMdxIncludePath (argTextOf arg))),
          includeImportPath p (dropLeadingSlashes (toMdxIncludePath (argTextOf arg))))],
        (snootyAstToMdastW (.mk "root" {} (includeContentChildren cs) none [])
            (some (collapseBackslashes (dropLeadingSlashes (toMdxIncludePath (argTextOf arg)))))).2
          ++ [(dropLeadingSlashes (toMdxIncludePath (argTextOf arg)),
              (snootyAstToMdastW (.mk "root" {} (includeContentChildren cs) none [])
                  (some (collapseBackslashes
                    (dropLeadingSlashes (toMdxIncludePath (argTextOf arg)))))).1)]⟩
      ∧ endsWithCI (toMdxIncludePath (argTextOf arg)) ".mdx" = true := by
  refine ⟨?_, toMdxIncludePath_mdx _⟩
  rw [convertNodeW.eq_def]
  rcases h with h | h <;> simp [h]

/-- C2 witness: an `include` of `/fragments/note.rst` converted while
    producing `guide/page.mdx` emits exactly the fragment
    `fragments/note.mdx`, registers `Note` at `../fragments/note.mdx`, and
    returns the childless, attributeless `<Note />` component. -/
theorem include_directive_spec_witness :
    convertNodeW
        (.mk "directive" {name := some "include"} [] (some (.inr "/fragments/note.rst")) [])
        1 (some "guide/page.mdx")
      = ⟨[.jsxFlow "Note" [] []], [("Note", "../fragments/note.mdx")],
          [("fragments/note.mdx", .root [])]⟩ := by
  rw [(include_directive_spec {name := some "include"} [] (some (.inr "/fragments/note.rst"))
    [] 1 (some "guide/page.mdx") (Or.inl rfl)).1]
  have hr : rootPassW [] (some "fragments/note.mdx") = (Conv.empty, []) := by
    rw [rootPassW.eq_def]
  have hw : wrapInlineRuns ([] : List MdastNode) = [] := by
    rw [wrapInlineRuns.eq_def]
  have hs : snootyAstToMdastW (.mk "root" {} [] none []) (some "fragments/note.mdx")
      = (.root [], []) := by
    rw [snootyAstToMdastW.eq_def]
    simp only [SnootyNode.children, SnootyNode.scalars]
    rw [hr]
    show (MdastNode.root (wrapInlineRuns []), ([] : List (String × MdastNode))) = (.root [], [])
    rw [hw]
  have harg : dropLeadingSlashes (toMdxIncludePath (argTextOf (some (.inr "/fragments/note.rst"))))
      = "fragments/note.mdx" := rfl
  rw [harg]
  have hcoll : collapseBackslashes "fragments/note.mdx" = "fragments/note.mdx" := rfl
  rw [hcoll]
  have hcc : includeContentChildren ([] : List SnootyNode) = [] := rfl
  rw [hcc, hs]
  rfl

theorem rootPassW_snd_hoist (ns : List SnootyNode) (p : Option String) :
    (rootPassW ns p).2
      = (ns.filter isMetaWithOptions).map (fun c => c.scalars.options.getD []) := by
  induction ns with
  | nil =>
    rw [rootPassW.eq_def]
    simp
  | cons c rest ih =>
    rw [rootPassW.eq_def]
    dsimp only
    by_cases hg : (c.type == "directive" && lowerNameJs c.scalars == "meta"
        && c.scalars.options.isSome) = true
    · rw [if_pos hg]
      simp [List.filter_cons, isMetaWithOptions, hg, ih]
    · rw [if_neg hg]
      have hgf : isMetaWithOptions c = false := by
        simp only [isMetaWithOptions]
        exact Bool.of_not_eq_true hg
      simp [List.filter_cons, hgf, ih]

theorem rootPassW_fst_skip (ns : List SnootyNode) (p : Option String) :
    (rootPassW ns p).1
      = (rootPassW (ns.filter (fun c => !(isMetaWithOptions c))) p).1 := by
  induction ns with
  | nil => rfl
  | cons c rest ih =>
    by_cases hg : (c.type == "directive" && lowerNameJs c.scalars == "meta"
        && c.scalars.options.isSome) = true
    · rw [rootPassW.eq_def]
      dsimp only
      rw [if_pos hg]
      have hgt : isMetaWithOptions c = true := by
        simp only [isMetaWithOptions]
        exact hg
      have hf : (c :: rest).filter (fun c => !(isMetaWithOptions c))
          = rest.filter (fun c => !(isMetaWithOptions c)) := by
        simp [List.filter_cons, hgt]
      rw [hf]
      exact ih
    · conv_lhs => rw [rootPassW.eq_def]
      dsimp only
      rw [if_neg hg]
      have hgf : isMetaWithOptions c = false := by
        simp only [isMetaWithOptions]
        exact Bool.of_not_eq_true hg
      have hf : (c :: rest).filter (fun c => !(isMetaWithOptions c))
          = c :: rest.filter (fun c => !(isMetaWithOptions c)) := by
        simp [List.filter_cons, hgf]
      rw [hf]
      conv_rhs => rw [rootPassW.eq_def]
      dsimp only
      rw [if_neg hg]
      simp only [Conv.append]
      rw [ih]

theorem foldl_jsAssign_lookup (os : List (List (String × JsValue))) :
    ∀ (acc : List (String × JsValue)) (k : String),
      (∀ o ∈ os, (assocKeys o).Nodup) →
      assocLookup (os.foldl jsAssign acc) k
        = ((os.reverse.findSome? (fun o => assocLookup o k)).or (assocLookup acc k)) := by
  induction os with
  | nil =>
    intro acc k _
    simp [Option.or]
  | cons o rest ih =>
    intro acc k hos
    simp only [List.foldl_cons, List.reverse_cons]
    rw [ih (jsAssign acc o) k (fun x hx => hos x (List.mem_cons_of_mem o hx))]
    rw [assocLookup_jsAssign o acc k (hos o (List.mem_cons_self o rest))]
    rw [List.findSome?_append]
    cases hfs : rest.reverse.findSome? (fun o => assocLookup o k) with
    | none =>
      simp [List.findSome?, Option.or]
      cases assocLookup o k <;> simp [Option.or]
    | some v =>
      simp [Option.or]



theorem jsAssign_keys_nodup {α : Type} (b : List (String × α)) :
    ∀ a : List (String × α), (assocKeys a).Nodup → (assocKeys (jsAssign a b)).Nodup := by
  induction b with
  | nil => exact fun a ha => ha
  | cons e rest ih =>
    intro a ha
    show (assocKeys (jsAssign (assocSet a e.1 e.2) rest)).Nodup
    exact ih _ (assocKeys_assocSet_nodup a e.1 e.2 ha)

theorem foldl_jsAssign_keys_nodup (os : List (List (String × JsValue))) :
    ∀ acc : List (String × JsValue), (assocKeys acc).Nodup →
      (assocKeys (os.foldl jsAssign acc)).Nodup := by
  induction os with
  | nil => exact fun acc h => h
  | cons o rest ih =>
    intro acc h
    simp only [List.foldl_cons]
    exact ih _ (jsAssign_keys_nodup o acc h)

/-- C4 (amended): meta-directive hoisting happens at the root level only.
    For the root's child list: the hoisted option objects are exactly the
    options of the root-level meta directives that carry options, in order;
    hoisted metas contribute no output nodes (converting the child list
    equals converting it with those metas removed); in the frontmatter
    object, a key defined by a meta directive resolves to the LAST meta
    defining it and a page-level option never overrides a meta's matching
    key (page options are only a fallback); and a meta directive converted
    inline (at any depth) produces zero output nodes, registrations and
    emissions. The original claim's "every meta directive in the tree" is
    corrected to "every root-level meta directive": a nested meta's options
    are silently dropped (see the counterexample). -/
theorem meta_frontmatter_spec (ns : List SnootyNode) (p : Option String)
    (pageOptions : List (String × JsValue)) (k : String)
    (sc : SnootyScalars) (cs : List SnootyNode) (arg : Option (List SnootyNode ⊕ String))
    (tm : List SnootyNode) (d : Nat)
    (hos : ∀ o ∈ (rootPassW ns p).2, (assocKeys o).Nodup)
    (hmeta : lowerNameOf sc = "meta") :
    (rootPassW ns p).2 = (ns.filter isMetaWithOptions).map (fun c => c.scalars.options.getD [])
    ∧ (rootPassW ns p).1 = (rootPassW (ns.filter (fun c => !(isMetaWithOptions c))) p).1
    ∧ assocLookup (jsAssign pageOptions ((rootPassW ns p).2.foldl jsAssign [])) k
        = (((rootPassW ns p).2.reverse.findSome? (fun o => assocLookup o k)).or
            (assocLookup pageOptions k))
    ∧ convertNodeW (.mk "directive" sc cs arg tm) d p = Conv.empty := by
  refine ⟨rootPassW_snd_hoist ns p, rootPassW_fst_skip ns p, ?_, ?_⟩
  · have hnod : (assocKeys ((rootPassW ns p).2.foldl jsAssign [])).Nodup :=
      foldl_jsAssign_keys_nodup _ [] (by simp [assocKeys])
    rw [assocLookup_jsAssign _ pageOptions k hnod]
    rw [foldl_jsAssign_lookup _ [] k hos]
    cases (rootPassW ns p).2.reverse.findSome? (fun o => assocLookup o k) <;>
      simp [assocLookup_nil, Option.or]
  · rw [convertNodeW.eq_def]
    simp [hmeta]

/-- C4 witness: two root-level metas with overlapping key `b` and page
    options also defining `a`: the frontmatter value of `b` is the later
    meta's `"3"`. -/
theorem meta_frontmatter_spec_witness :
    assocLookup
        (jsAssign [("a", JsValue.str "0"), ("c", JsValue.str "9")]
          ((rootPassW
              [.mk "directive"
                  {name := some "meta",
                    options := some [("a", JsValue.str "1"), ("b", JsValue.str "2")]} [] none [],
                .mk "directive" {name := some "meta", options := some [("b", JsValue.str "3")]}
                  [] none []]
              none).2.foldl jsAssign []))
        "b"
      = some (JsValue.str "3") := by
  have hos : ∀ o ∈ (rootPassW
      [SnootyNode.mk "directive"
          {name := some "meta",
            options := some [("a", JsValue.str "1"), ("b", JsValue.str "2")]} [] none [],
        SnootyNode.mk "directive" {name := some "meta", options := some [("b", JsValue.str "3")]}
          [] none []]
      none).2, (assocKeys o).Nodup := by
    rw [rootPassW_snd_hoist]
    decide
  have h := meta_frontmatter_spec
    [SnootyNode.mk "directive"
        {name := some "meta",
          options := some [("a", JsValue.str "1"), ("b", JsValue.str "2")]} [] none [],
      SnootyNode.mk "directive" {name := some "meta", options := some [("b", JsValue.str "3")]}
        [] none []]
    none [("a", JsValue.str "0"), ("c", JsValue.str "9")] "b"
    {name := some "meta"} [] none [] 0 hos rfl
  rw [h.2.2.1]
  rw [rootPassW_snd_hoist]
  rfl



/-- C4 counterexample to the original claim: a meta directive nested inside
    a section contributes nothing to the page frontmatter — the converted
    page is a bare empty root with no yaml node, so the meta's
    `description` option appears nowhere in the output. -/
theorem meta_hoist_counterexample :
    snootyAstToMdastW
        (.mk "root" {}
          [.mk "section" {}
            [.mk "directive"
                {name := some "meta", options := some [("description", JsValue.str "D")]}
                [] none []]
            none []]
          none [])
        none
      = (.root [], []) := by
  have hm : convertNodeW
      (.mk "directive" {name := some "meta", options := some [("description", JsValue.str "D")]}
        [] none []) 2 none = Conv.empty := by
    rw [convertNodeW.eq_def]
    rfl
  have h0 : ∀ d : Nat, convertChildrenW ([] : List SnootyNode) d none = Conv.empty := by
    intro d
    rw [convertChildrenW.eq_def]
  have hcl : convertChildrenW
      [SnootyNode.mk "directive"
          {name := some "meta", options := some [("description", JsValue.str "D")]} [] none []]
      2 none = Conv.empty := by
    rw [convertChildrenW.eq_def]
    simp [hm, h0, Conv.append, Conv.empty]
  have hsec : convertNodeW
      (.mk "section" {}
        [.mk "directive"
            {name := some "meta", options := some [("description", JsValue.str "D")]} [] none []]
        none []) 1 none = Conv.empty := by
    rw [convertNodeW.eq_def]
    simp [hcl, findTitleSplit, SnootyNode.type]
  have hr0 : rootPassW [] none = (Conv.empty, []) := by
    rw [rootPassW.eq_def]
  have hr : rootPassW
      [SnootyNode.mk "section" {}
        [.mk "directive"
            {name := some "meta", options := some [("description", JsValue.str "D")]} [] none []]
        none []] none = (Conv.empty, []) := by
    rw [rootPassW.eq_def]
    dsimp only
    rw [if_neg (by decide)]
    rw [hsec, hr0]
    simp [Conv.append, Conv.empty]
  have hw : wrapInlineRuns ([] : List MdastNode) = [] := by
    rw [wrapInlineRuns.eq_def]
  rw [snootyAstToMdastW.eq_def]
  simp only [SnootyNode.children, SnootyNode.scalars]
  rw [hr]
  show (MdastNode.root (wrapInlineRuns []), ([] : List (String × MdastNode))) = (.root [], [])
  rw [hw]

theorem nsize_pos (m : SnootyNode) : 2 ≤ nsize m := by
  cases m
  simp only [nsize]
  omega

theorem headsLEList_append (a b : List MdastNode) :
    headsLEList (a ++ b) = (headsLEList a && headsLEList b) := by
  induction a with
  | nil => simp [headsLEList]
  | cons x xs ih => simp [headsLEList, ih, Bool.and_assoc]

theorem ConvOK_empty : ConvOK Conv.empty := by
  refine ⟨rfl, ?_⟩
  intro e he
  simp [Conv.empty] at he

theorem ConvOK_lift (ns : List MdastNode) (h : headsLEList ns = true) : ConvOK (Conv.lift ns) := by
  refine ⟨h, ?_⟩
  intro e he
  simp [Conv.lift] at he

theorem ConvOK_append (a b : Conv) (ha : ConvOK a) (hb : ConvOK b) : ConvOK (a.append b) := by
  refine ⟨?_, ?_⟩
  · simp only [Conv.append, headsLEList_append, ha.1, hb.1, Bool.and_self]
  · intro e he
    simp only [Conv.append, List.mem_append] at he
    rcases he with h | h
    · exact ha.2 e h
    · exact hb.2 e h

theorem ConvOK_wrap1 (f : List MdastNode → MdastNode) (c : Conv)
    (hf : ∀ l, headsLEList l = true → headsLE (f l) = true) (hc : ConvOK c) :
    ConvOK (Conv.wrap1 f c) := by
  refine ⟨?_, hc.2⟩
  simp [Conv.wrap1, headsLEList, hf _ hc.1]

theorem headsLE_setChildren (n : MdastNode) (l : List MdastNode)
    (hn : headsLE n = true) (hl : headsLEList l = true) :
    headsLE (setChildrenMd n l) = true := by
  cases n <;> simp [setChildrenMd, headsLE, hl] at hn ⊢
  exact hn.1

theorem headsLEList_children (n : MdastNode) (hn : headsLE n = true) :
    headsLEList (childrenMd n) = true := by
  cases n <;> simp [childrenMd, headsLE, headsLEList] at hn ⊢ <;> try exact hn
  exact hn.2

theorem headsLEList_takeWhile (q : MdastNode → Bool) (l : List MdastNode)
    (hl : headsLEList l = true) : headsLEList (l.takeWhile q) = true := by
  induction l with
  | nil => simp [List.takeWhile, headsLEList]
  | cons x xs ih =>
    simp only [headsLEList, Bool.and_eq_true] at hl
    simp only [List.takeWhile]
    cases hq : q x
    · rfl
    · simp [headsLEList, hl.1, ih hl.2]

theorem headsLEList_dropWhile (q : MdastNode → Bool) (l : List MdastNode)
    (hl : headsLEList l = true) : headsLEList (l.dropWhile q) = true := by
  induction l with
  | nil => simp [List.dropWhile, headsLEList]
  | cons x xs ih =>
    simp only [headsLEList, Bool.and_eq_true] at hl
    simp only [List.dropWhile]
    cases hq : q x
    · simp [headsLEList, hl.1, hl.2]
    · exact ih hl.2

theorem wrapInlineRuns_headsLE (ns : List MdastNode) (h : headsLEList ns = true) :
    headsLEList (wrapInlineRuns ns) = true := by
  induction ns using wrapInlineRuns.induct with
  | case1 =>
    rw [wrapInlineRuns.eq_def]
    rfl
  | case2 n rest h1 rest2 ih =>
    rw [wrapInlineRuns.eq_def]
    dsimp only
    rw [dif_pos h1]
    simp only [headsLEList, Bool.and_eq_true]
    constructor
    · show headsLEList ((n :: rest).takeWhile isInlineMd) = true
      exact headsLEList_takeWhile _ _ h
    · exact ih (headsLEList_dropWhile _ _ h)
  | case3 n rest h1 ih1 ih2 =>
    rw [wrapInlineRuns.eq_def]
    dsimp only
    rw [dif_neg h1]
    simp only [headsLEList, Bool.and_eq_true] at h ⊢
    constructor
    · by_cases hc : hasChildrenMd n = true
      · simp only [hc, if_true]
        exact headsLE_setChildren n _ h.1 ((ih1 hc) (headsLEList_children n h.1))
      · simp only [Bool.not_eq_true] at hc
        simp only [hc]
        simpa using h.1
    · exact ih2 h.2

theorem findTitleSplit_nsize (cs : List SnootyNode) :
    ∀ tr : SnootyNode × List SnootyNode, findTitleSplit cs = some tr →
      nsize tr.1 + nsizeList tr.2 = nsizeList cs := by
  induction cs with
  | nil => intro tr h; simp [findTitleSplit] at h
  | cons c rest ih =>
    intro tr h
    simp only [findTitleSplit] at h
    by_cases hc : (c.type == "title" || c.type == "heading") = true
    · rw [if_pos hc] at h
      cases h
      simp [nsizeList]
    · rw [if_neg hc] at h
      cases hfs : findTitleSplit rest with
      | none => rw [hfs] at h; simp at h
      | some tr2 =>
        rw [hfs] at h
        simp only [Option.map_some'] at h
        cases h
        have h2 := ih tr2 hfs
        simp only [nsizeList]
        omega

theorem noExplicitDepth_parts (t : String) (sc : SnootyScalars) (cs : List SnootyNode)
    (arg : Option (List SnootyNode ⊕ String)) (tm : List SnootyNode)
    (h : noExplicitDepth (.mk t sc cs arg tm) = true) :
    noExplicitDepthList cs = true ∧ noExplicitDepthArg arg = true
      ∧ noExplicitDepthList tm = true
      ∧ ((t == "title" || t == "heading") = true → sc.depth = none) := by
  simp only [noExplicitDepth, Bool.and_eq_true] at h
  refine ⟨h.1.1.2, h.1.2, h.2, ?_⟩
  intro ht
  have h3 := h.1.1.1
  rw [ht] at h3
  simp only [Bool.not_true, Bool.false_or] at h3
  exact Option.isNone_iff_eq_none.mp h3

theorem findTitleSplit_noDepth (cs : List SnootyNode) :
    ∀ tr : SnootyNode × List SnootyNode, findTitleSplit cs = some tr →
      noExplicitDepthList cs = true →
      noExplicitDepth tr.1 = true ∧ noExplicitDepthList tr.2 = true := by
  induction cs with
  | nil => intro tr h _; simp [findTitleSplit] at h
  | cons c rest ih =>
    intro tr h hnd
    simp only [noExplicitDepthList, Bool.and_eq_true] at hnd
    simp only [findTitleSplit] at h
    by_cases hc : (c.type == "title" || c.type == "heading") = true
    · rw [if_pos hc] at h
      cases h
      exact ⟨hnd.1, hnd.2⟩
    · rw [if_neg hc] at h
      cases hfs : findTitleSplit rest with
      | none => rw [hfs] at h; simp at h
      | some tr2 =>
        rw [hfs] at h
        simp only [Option.map_some'] at h
        cases h
        have h2 := ih tr2 hfs hnd.2
        refine ⟨h2.1, ?_⟩
        simp only [noExplicitDepthList, Bool.and_eq_true]
        exact ⟨hnd.1, h2.2⟩

theorem noExplicitDepth_children (c : SnootyNode) (h : noExplicitDepth c = true) :
    noExplicitDepthList c.children = true := by
  cases c with
  | mk t sc cs arg tm => exact (noExplicitDepth_parts t sc cs arg tm h).1

theorem includeContentChildren_nsize (cs : List SnootyNode) :
    nsizeList (includeContentChildren cs) ≤ nsizeList cs := by
  simp only [includeContentChildren]
  split
  · split
    · rename_i c hcnd
      cases c with
      | mk a b cc e f =>
        simp only [SnootyNode.children, nsizeList, nsize]
        omega
    · exact Nat.le_refl _
  · exact Nat.le_refl _

theorem includeContentChildren_noDepth (cs : List SnootyNode)
    (h : noExplicitDepthList cs = true) :
    noExplicitDepthList (includeContentChildren cs) = true := by
  simp only [includeContentChildren]
  split
  · rename_i cs2 x
    simp only [noExplicitDepthList, Bool.and_eq_true] at h
    split
    · exact noExplicitDepth_children x h.1
    · simp [noExplicitDepthList, h.1]
  · exact h

theorem noExplicitDepthArg_nodes (arg : Option (List SnootyNode ⊕ String))
    (h : noExplicitDepthArg arg = true) :
    noExplicitDepthList (argNodesOf arg) = true := by
  rcases arg with _ | a
  · rfl
  · rcases a with ns | s
    · exact h
    · rfl

theorem argNodesOf_nsize (arg : Option (List SnootyNode ⊕ String)) :
    nsizeList (argNodesOf arg) ≤ nsizeArg arg := by
  rcases arg with _ | a
  · simp [argNodesOf, nsizeArg, nsizeList]
  · rcases a with ns | s
    · simp [argNodesOf, nsizeArg]
    · simp [argNodesOf, nsizeArg, nsizeList]

theorem headsLEList_argLiteral (arg : Option (List SnootyNode ⊕ String)) :
    headsLEList (argLiteralNodes arg) = true := by
  rcases arg with _ | a
  · rfl
  · rcases a with ns | s <;> rfl

theorem figureConvert_ConvOK (sc : SnootyScalars) (cs : List SnootyNode)
    (arg : Option (List SnootyNode ⊕ String)) (p : Option String) :
    ConvOK (figureConvert sc cs arg p) := by
  show ConvOK
    (if (figureAssetPosix cs arg == "") = true then
      Conv.lift [MdastNode.html "<!-- figure missing src -->"]
    else
      ⟨[.jsxFlow "Image" (figureAttrs sc (figureImageIdent p (figureAssetPosix cs arg))) []],
        [(figureImageIdent p (figureAssetPosix cs arg),
          figureImportPath p (figureAssetPosix cs arg))], []⟩)
  split
  · apply ConvOK_lift
    rfl
  · constructor
    · rfl
    · intro e he
      simp only [List.mem_nil_iff] at he

theorem literalincludeConvert_ConvOK (sc : SnootyScalars)
    (arg : Option (List SnootyNode ⊕ String)) :
    ConvOK (literalincludeConvert sc arg) := by
  unfold literalincludeConvert
  apply ConvOK_lift
  rfl

theorem ConvOK_nodesOf (c : Conv) (nodes : List MdastNode) (regs : List (String × String))
    (hn : headsLEList nodes = true) (hc : ConvOK c) : ConvOK ⟨nodes, regs, c.emits⟩ :=
  ⟨hn, hc.2⟩

theorem ConvOK_emits2 (a b : Conv) (nodes : List MdastNode) (regs : List (String × String))
    (ha : ConvOK a) (hb : ConvOK b) (hn : headsLEList nodes = true) :
    ConvOK ⟨nodes, regs, a.emits ++ b.emits⟩ := by
  refine ⟨hn, ?_⟩
  intro e he
  rcases List.mem_append.mp he with h | h
  · exact ha.2 e h
  · exact hb.2 e h

theorem nsize_children_le (c : SnootyNode) : nsizeList c.children + 2 ≤ nsize c := by
  cases c with
  | mk t sc cs arg tm =>
    simp only [SnootyNode.children, nsize]
    omega

theorem headsLEList_spans (ids : List String) :
    headsLEList (ids.map (fun i => MdastNode.jsxFlow "span" [⟨"id", .str i⟩] [])) = true := by
  induction ids with
  | nil => rfl
  | cons i is ih => simp [headsLEList, headsLE, ih]

theorem ConvOK_ite (c : Prop) [Decidable c] (a b : Conv)
    (ha : ConvOK a) (hb : ConvOK b) : ConvOK (if c then a else b) := by
  split
  · exact ha
  · exact hb

-- Size-bounded form of the heading-clamp invariant, proved for all five
-- converter functions simultaneously by strong induction on the
-- termination measure.
set_option maxHeartbeats 4000000 in
theorem convHeads_main : ∀ k : Nat,
    (∀ (n : SnootyNode) (d : Nat) (p : Option String), 3 * nsize n + 2 ≤ k →
      noExplicitDepth n = true → ConvOK (convertNodeW n d p))
    ∧ (∀ (ns : List SnootyNode) (d : Nat) (p : Option String), 3 * (1 + nsizeList ns) ≤ k →
      noExplicitDepthList ns = true → ConvOK (convertChildrenW ns d p))
    ∧ (∀ (ns : List SnootyNode) (d : Nat) (p : Option String), 3 * (1 + nsizeList ns) + 1 ≤ k →
      noExplicitDepthList ns = true → ConvOK (lineBlockW ns d p))
    ∧ (∀ (ns : List SnootyNode) (p : Option String), 3 * (1 + nsizeList ns) ≤ k →
      noExplicitDepthList ns = true → ConvOK (rootPassW ns p).1)
    ∧ (∀ (r : SnootyNode) (p : Option String), 3 * nsize r + 1 ≤ k →
      noExplicitDepth r = true →
      headsLE (snootyAstToMdastW r p).1 = true
        ∧ ∀ e ∈ (snootyAstToMdastW r p).2, headsLE e.2 = true) := by
  intro k
  induction k using Nat.strong_induction_on with
  | _ k ih =>
  refine ⟨?_, ?_, ?_, ?_, ?_⟩
  · intro n d p hk hnd
    cases n with
    | mk t sc cs arg tm =>
    obtain ⟨hcs, harg, htm, hdep⟩ := noExplicitDepth_parts t sc cs arg tm hnd
    have hns : nsize (SnootyNode.mk t sc cs arg tm)
        = 2 + nsizeList cs + nsizeArg arg + nsizeList tm := by
      simp [nsize]
    rw [hns] at hk
    have IHcs : ∀ (l : List SnootyNode) (d2 : Nat), 3 * (1 + nsizeList l) < k →
        noExplicitDepthList l = true → ConvOK (convertChildrenW l d2 p) := by
      intro l d2 hl hndl
      exact (ih _ hl).2.1 l d2 p (le_refl _) hndl
    have IHline : ConvOK (lineBlockW cs d p) :=
      (ih (3 * (1 + nsizeList cs) + 2) (by omega)).2.2.1 cs d p (by omega) hcs
    rw [convertNodeW.eq_def]
    dsimp only
    by_cases hb1 : (t == "text") = true
    · rw [if_pos hb1]
      apply ConvOK_lift
      rfl
    rw [if_neg hb1]
    by_cases hb2 : (t == "paragraph") = true
    · rw [if_pos hb2]
      exact ConvOK_wrap1 _ _ (fun l hl => hl) (IHcs cs d (by omega) hcs)
    rw [if_neg hb2]
    by_cases hb3 : (t == "emphasis") = true
    · rw [if_pos hb3]
      exact ConvOK_wrap1 _ _ (fun l hl => hl) (IHcs cs d (by omega) hcs)
    rw [if_neg hb3]
    by_cases hb4 : (t == "strong") = true
    · rw [if_pos hb4]
      exact ConvOK_wrap1 _ _ (fun l hl => hl) (IHcs cs d (by omega) hcs)
    rw [if_neg hb4]
    by_cases hb5 : (t == "literal") = true
    · rw [if_pos hb5]
      apply ConvOK_lift
      rfl
    rw [if_neg hb5]
    by_cases hb6 : (t == "code" || t == "literal_block") = true
    · rw [if_pos hb6]
      apply ConvOK_lift
      rfl
    rw [if_neg hb6]
    by_cases hb7 : (t == "bullet_list") = true
    · rw [if_pos hb7]
      exact ConvOK_wrap1 _ _ (fun l hl => hl) (IHcs cs d (by omega) hcs)
    rw [if_neg hb7]
    by_cases hb8 : (t == "enumerated_list" || t == "ordered_list") = true
    · rw [if_pos hb8]
      exact ConvOK_wrap1 _ _ (fun l hl => hl) (IHcs cs d (by omega) hcs)
    rw [if_neg hb8]
    by_cases hb9 : (t == "list_item" || t == "listItem") = true
    · rw [if_pos hb9]
      exact ConvOK_wrap1 _ _ (fun l hl => hl) (IHcs cs d (by omega) hcs)
    rw [if_neg hb9]
    by_cases hb10 : (t == "list") = true
    · rw [if_pos hb10]
      exact ConvOK_wrap1 _ _ (fun l hl => hl) (IHcs cs d (by omega) hcs)
    rw [if_neg hb10]
    by_cases hb11 : (t == "field_list") = true
    · rw [if_pos hb11]
      exact ConvOK_wrap1 _ _ (fun l hl => hl) (IHcs cs d (by omega) hcs)
    rw [if_neg hb11]
    by_cases hb12 : (t == "field") = true
    · rw [if_pos hb12]
      exact ConvOK_wrap1 _ _ (fun l hl => hl) (IHcs cs d (by omega) hcs)
    rw [if_neg hb12]
    by_cases hb13 : (t == "table" || t == "table_head" || t == "table_body" || t == "table_row" || t == "table_cell") = true
    · rw [if_pos hb13]
      exact ConvOK_wrap1 _ _ (fun l hl => hl) (IHcs cs d (by omega) hcs)
    rw [if_neg hb13]
    by_cases hb14 : (t == "reference") = true
    · rw [if_pos hb14]
      have hc := IHcs cs d (by omega) hcs
      split
      · exact hc
      · exact ConvOK_wrap1 _ _ (fun l hl => hl) hc
    rw [if_neg hb14]
    by_cases hb15 : (t == "section") = true
    · rw [if_pos hb15]
      by_cases hts : ((findTitleSplit cs).isSome) = true
      · rw [dif_pos hts]
        have hsome : findTitleSplit cs = some ((findTitleSplit cs).get hts) :=
          (Option.some_get hts).symm
        have hnd2 := findTitleSplit_noDepth cs _ hsome hcs
        have hsz := findTitleSplit_nsize cs _ hsome
        have hch := nsize_children_le ((findTitleSplit cs).get hts).1
        have h1 := IHcs ((findTitleSplit cs).get hts).1.children d (by omega)
          (noExplicitDepth_children _ hnd2.1)
        have h2 := IHcs ((findTitleSplit cs).get hts).2 (d + 1) (by omega) hnd2.2
        refine ConvOK_emits2 _ _ _ _ h1 h2 ?_
        simp [headsLEList, headsLE, h1.1, h2.1, Nat.min_le_right]
      · rw [dif_neg hts]
        exact IHcs cs _ (by omega) hcs
    rw [if_neg hb15]
    by_cases hb16 : (t == "title" || t == "heading") = true
    · rw [if_pos hb16]
      have hdn := hdep hb16
      have hc := IHcs cs d (by omega) hcs
      refine ConvOK_nodesOf (convertChildrenW cs d p) _ _ ?_ hc
      rw [hdn]
      simp [headsLEList, headsLE, hc.1, Nat.min_le_right]
    rw [if_neg hb16]
    by_cases hb17 : (t == "directive") = true
    · rw [if_pos hb17]
      by_cases hd1 : (lowerNameOf sc == "meta") = true
      · rw [if_pos hd1]
        exact ConvOK_empty
      rw [if_neg hd1]
      by_cases hd2 : (lowerNameOf sc == "figure") = true
      · rw [if_pos hd2]
        exact figureConvert_ConvOK sc cs arg p
      rw [if_neg hd2]
      by_cases hd3 : (lowerNameOf sc == "literalinclude") = true
      · rw [if_pos hd3]
        exact literalincludeConvert_ConvOK sc arg
      rw [if_neg hd3]
      by_cases hd4 : (lowerNameOf sc == "include" || lowerNameOf sc == "sharedinclude") = true
      · rw [if_pos hd4]
        have hndr : noExplicitDepth (.mk "root" {} (includeContentChildren cs) none []) = true := by
          have h5 := includeContentChildren_noDepth cs hcs
          simp [noExplicitDepth, noExplicitDepthArg, noExplicitDepthList, h5]
        have hics := includeContentChildren_nsize cs
        have hnr : nsize (.mk "root" ({} : SnootyScalars) (includeContentChildren cs) none [])
            = 2 + nsizeList (includeContentChildren cs) := by
          simp [nsize, nsizeArg, nsizeList]
        have hast := (ih
            (3 * nsize (.mk "root" ({} : SnootyScalars) (includeContentChildren cs) none []) + 1)
            (by rw [hnr]; omega)).2.2.2.2
          (.mk "root" ({} : SnootyScalars) (includeContentChildren cs) none [])
          (some (collapseBackslashes (dropLeadingSlashes (toMdxIncludePath (argTextOf arg)))))
          (le_refl _) hndr
        refine ⟨rfl, ?_⟩
        intro e he
        rcases List.mem_append.mp he with h | h
        · exact hast.2 e h
        · have he2 := List.mem_singleton.mp h
          subst he2
          exact hast.1
      rw [if_neg hd4]
      have hbody := IHcs cs d (by omega) hcs
      have hargn := IHcs (argNodesOf arg) d (by have := argNodesOf_nsize arg; omega)
        (noExplicitDepthArg_nodes arg harg)
      have hargc : ConvOK ((convertChildrenW (argNodesOf arg) d p).append
          (Conv.lift (argLiteralNodes arg))) :=
        ConvOK_append _ _ hargn (ConvOK_lift _ (headsLEList_argLiteral arg))
      split
      · apply ConvOK_ite
        · exact ConvOK_emits2 _ _ _ _ hargc hbody rfl
        · refine ConvOK_emits2 _ _ _ _ hargc hbody ?_
          simp [headsLEList, headsLE, headsLEList_append, hargc.1, hbody.1]
      · apply ConvOK_ite
        · exact ConvOK_emits2 _ _ _ _ ConvOK_empty hbody rfl
        · refine ConvOK_emits2 _ _ _ _ ConvOK_empty hbody ?_
          simp [headsLEList, headsLE, headsLEList_append, hbody.1, Conv.empty]
    rw [if_neg hb17]
    by_cases hb18 : (t == "ref_role" || t == "doc") = true
    · rw [if_pos hb18]
      have hc := IHcs cs d (by omega) hcs
      split
      · exact hc
      · exact ConvOK_nodesOf _ _ _ (by simp [headsLEList, headsLE, hc.1]) hc
    rw [if_neg hb18]
    by_cases hb19 : (t == "role") = true
    · rw [if_pos hb19]
      have hc := IHcs cs d (by omega) hcs
      refine ConvOK_nodesOf (convertChildrenW cs d p) _ _ ?_ hc
      repeat' split
      all_goals first
        | rfl
        | simp [headsLEList, headsLE, hc.1]
    rw [if_neg hb19]
    by_cases hb20 : (t == "superscript") = true
    · rw [if_pos hb20]
      exact ConvOK_wrap1 _ _ (fun l hl => hl) (IHcs cs d (by omega) hcs)
    rw [if_neg hb20]
    by_cases hb21 : (t == "subscript") = true
    · rw [if_pos hb21]
      exact ConvOK_wrap1 _ _ (fun l hl => hl) (IHcs cs d (by omega) hcs)
    rw [if_neg hb21]
    by_cases hb22 : (t == "definitionList") = true
    · rw [if_pos hb22]
      exact ConvOK_wrap1 _ _ (fun l hl => hl) (IHcs cs d (by omega) hcs)
    rw [if_neg hb22]
    by_cases hb23 : (t == "definitionListItem") = true
    · rw [if_pos hb23]
      have h1 := IHcs tm d (by omega) htm
      have h2 := IHcs cs d (by omega) hcs
      exact ConvOK_emits2 _ _ _ _ h1 h2
        (by simp [headsLEList, headsLE, headsLEList_append, h1.1, h2.1])
    rw [if_neg hb23]
    by_cases hb24 : (t == "line_block") = true
    · rw [if_pos hb24]
      exact ConvOK_wrap1 _ _ (fun l hl => hl) IHline
    rw [if_neg hb24]
    by_cases hb25 : (t == "line") = true
    · rw [if_pos hb25]
      apply ConvOK_lift
      rfl
    rw [if_neg hb25]
    by_cases hb26 : (t == "title_reference") = true
    · rw [if_pos hb26]
      exact ConvOK_wrap1 _ _ (fun l hl => hl) (IHcs cs d (by omega) hcs)
    rw [if_neg hb26]
    by_cases hb27 : (t == "footnote") = true
    · rw [if_pos hb27]
      have hc := IHcs cs d (by omega) hcs
      split
      · exact hc
      · exact ConvOK_nodesOf _ _ _ (by simp [headsLEList, headsLE, hc.1]) hc
    rw [if_neg hb27]
    by_cases hb28 : (t == "footnote_reference") = true
    · rw [if_pos hb28]
      split
      · exact ConvOK_empty
      · apply ConvOK_lift
        rfl
    rw [if_neg hb28]
    by_cases hb29 : (t == "named_reference") = true
    · rw [if_pos hb29]
      exact ConvOK_empty
    rw [if_neg hb29]
    by_cases hb30 : (t == "substitution_definition") = true
    · rw [if_pos hb30]
      exact ConvOK_empty
    rw [if_neg hb30]
    by_cases hb31 : (t == "substitution_reference" || t == "substitution") = true
    · rw [if_pos hb31]
      have hc := IHcs cs d (by omega) hcs
      exact ConvOK_nodesOf _ _ _ (by simp [headsLEList, headsLE, hc.1]) hc
    rw [if_neg hb31]
    by_cases hb32 : (t == "directive_argument") = true
    · rw [if_pos hb32]
      exact IHcs cs _ (by omega) hcs
    rw [if_neg hb32]
    by_cases hb33 : (t == "transition") = true
    · rw [if_pos hb33]
      apply ConvOK_lift
      rfl
    rw [if_neg hb33]
    by_cases hb34 : (t == "card-group") = true
    · rw [if_pos hb34]
      exact ConvOK_wrap1 _ _ (fun l hl => hl) (IHcs cs d (by omega) hcs)
    rw [if_neg hb34]
    by_cases hb35 : (t == "cta-banner") = true
    · rw [if_pos hb35]
      exact ConvOK_wrap1 _ _ (fun l hl => hl) (IHcs cs d (by omega) hcs)
    rw [if_neg hb35]
    by_cases hb36 : (t == "tabs") = true
    · rw [if_pos hb36]
      exact ConvOK_wrap1 _ _ (fun l hl => hl) (IHcs cs d (by omega) hcs)
    rw [if_neg hb36]
    by_cases hb37 : (t == "only") = true
    · rw [if_pos hb37]
      exact ConvOK_wrap1 _ _ (fun l hl => hl) (IHcs cs d (by omega) hcs)
    rw [if_neg hb37]
    by_cases hb38 : (t == "method-selector") = true
    · rw [if_pos hb38]
      exact ConvOK_wrap1 _ _ (fun l hl => hl) (IHcs cs d (by omega) hcs)
    rw [if_neg hb38]
    by_cases hb39 : (t == "target") = true
    · rw [if_pos hb39]
      repeat' split
      all_goals first
        | exact ConvOK_empty
        | (apply ConvOK_lift; exact headsLEList_spans _)
    rw [if_neg hb39]
    by_cases hb40 : (t == "inline_target" || t == "target_identifier") = true
    · rw [if_pos hb40]
      repeat' split
      all_goals first
        | exact ConvOK_empty
        | (apply ConvOK_lift; exact headsLEList_spans _)
    rw [if_neg hb40]
    by_cases hb41 : (t == "block_quote") = true
    · rw [if_pos hb41]
      exact ConvOK_wrap1 _ _ (fun l hl => hl) (IHcs cs d (by omega) hcs)
    rw [if_neg hb41]
    by_cases hb42 : (t == "admonition") = true
    · rw [if_pos hb42]
      exact ConvOK_wrap1 _ _ (fun l hl => hl) (IHcs cs d (by omega) hcs)
    rw [if_neg hb42]
    by_cases hb43 : (t == "comment" || t == "comment_block") = true
    · rw [if_pos hb43]
      exact ConvOK_empty
    rw [if_neg hb43]
    split
    · apply ConvOK_lift
      rfl
    · exact IHcs cs _ (by omega) hcs
  · intro ns d p hk hnd
    cases ns with
    | nil =>
      rw [convertChildrenW.eq_def]
      exact ConvOK_empty
    | cons c rest =>
      simp only [noExplicitDepthList, Bool.and_eq_true] at hnd
      have hsz := nsize_pos c
      have hszr : nsizeList (c :: rest) = nsize c + nsizeList rest := by simp [nsizeList]
      rw [hszr] at hk
      rw [convertChildrenW.eq_def]
      dsimp only
      refine ConvOK_append _ _ ?_ ?_
      · exact (ih (3 * nsize c + 2) (by omega)).1 c d p (le_refl _) hnd.1
      · exact (ih (3 * (1 + nsizeList rest)) (by omega)).2.1 rest d p (le_refl _) hnd.2
  · intro ns d p hk hnd
    cases ns with
    | nil =>
      rw [lineBlockW.eq_def]
      exact ConvOK_empty
    | cons ln rest =>
      simp only [noExplicitDepthList, Bool.and_eq_true] at hnd
      have hsz := nsize_pos ln
      have hszr : nsizeList (ln :: rest) = nsize ln + nsizeList rest := by simp [nsizeList]
      rw [hszr] at hk
      have h1 : ConvOK (convertChildrenW [ln] d p) := by
        refine (ih (3 * (1 + nsizeList [ln])) ?_).2.1 [ln] d p (le_refl _) ?_
        · simp only [nsizeList, Nat.add_zero]
          omega
        · simp [noExplicitDepthList, hnd.1]
      rw [lineBlockW.eq_def]
      dsimp only
      split
      · exact h1
      · have h2 : ConvOK (lineBlockW rest d p) := by
          refine (ih (3 * (1 + nsizeList rest) + 2) ?_).2.2.1 rest d p (by omega) hnd.2
          omega
        refine ConvOK_emits2 _ _ _ _ h1 h2 ?_
        simp [headsLEList_append, headsLEList, headsLE, h1.1, h2.1]
  · intro ns p hk hnd
    cases ns with
    | nil =>
      rw [rootPassW.eq_def]
      exact ConvOK_empty
    | cons c rest =>
      simp only [noExplicitDepthList, Bool.and_eq_true] at hnd
      have hsz := nsize_pos c
      have hszr : nsizeList (c :: rest) = nsize c + nsizeList rest := by simp [nsizeList]
      rw [hszr] at hk
      rw [rootPassW.eq_def]
      dsimp only
      split
      · exact (ih (3 * (1 + nsizeList rest)) (by omega)).2.2.2.1 rest p (le_refl _) hnd.2
      · refine ConvOK_append _ _ ?_ ?_
        · exact (ih (3 * nsize c + 2) (by omega)).1 c 1 p (le_refl _) hnd.1
        · exact (ih (3 * (1 + nsizeList rest)) (by omega)).2.2.2.1 rest p (le_refl _) hnd.2
  · intro r p hk hnd
    cases r with
    | mk t sc cs arg tm =>
    have hns : nsize (SnootyNode.mk t sc cs arg tm)
        = 2 + nsizeList cs + nsizeArg arg + nsizeList tm := by
      simp [nsize]
    rw [hns] at hk
    have hcs := noExplicitDepth_children _ hnd
    simp only [SnootyNode.children] at hcs
    have hroot : ConvOK (rootPassW cs p).1 :=
      (ih (3 * (1 + nsizeList cs)) (by omega)).2.2.2.1 cs p (le_refl _) hcs
    rw [snootyAstToMdastW.eq_def]
    dsimp only [SnootyNode.children, SnootyNode.scalars]
    constructor
    · show headsLEList (wrapInlineRuns _) = true
      apply wrapInlineRuns_headsLE
      rw [headsLEList_append, headsLEList_append]
      refine Bool.and_eq_true_iff.mpr ⟨Bool.and_eq_true_iff.mpr ⟨?_, ?_⟩, hroot.1⟩
      · split
        · rfl
        · rfl
      · split
        · rfl
        · rfl
    · intro e he
      exact hroot.2 e he

/-- C6 (amended): for every input tree in which no `title`/`heading` node
    carries an explicit `depth` field, every heading anywhere in the
    converted page — and in every emitted fragment tree — has depth at most
    6. The original claim's "including headings produced from explicit depth
    fields" is corrected: an explicit input depth is emitted verbatim,
    unclamped (see the counterexample). -/
theorem heading_depth_clamped (root : SnootyNode) (p : Option String)
    (h : noExplicitDepth root = true) :
    headsLE (snootyAstToMdastW root p).1 = true
    ∧ ∀ e ∈ (snootyAstToMdastW root p).2, headsLE e.2 = true :=
  (convHeads_main (3 * nsize root + 1)).2.2.2.2 root p (le_refl _) h

/-- C6 witness: a depth-free root containing a bare heading node satisfies
    the hypothesis, and its converted page satisfies the clamp invariant. -/
theorem heading_depth_clamped_witness :
    noExplicitDepth (.mk "root" {} [.mk "heading" {} [] none []] none []) = true
    ∧ headsLE (snootyAstToMdastW
        (.mk "root" {} [.mk "heading" {} [] none []] none []) none).1 = true :=
  ⟨by decide,
    (heading_depth_clamped (.mk "root" {} [.mk "heading" {} [] none []] none []) none
      (by decide)).1⟩

/-- C6 counterexample to the original claim: a `heading` input node with
    explicit `depth := 9` converts to a heading of depth 9 — the explicit
    depth field is not clamped to 6. -/
theorem heading_clamp_counterexample :
    convertNodeW (.mk "heading" {depth := some 9} [] none []) 1 none
      = ⟨[.heading 9 []], [], []⟩
    ∧ headsLEList (convertNodeW (.mk "heading" {depth := some 9} [] none []) 1 none).nodes
      = false := by
  have h0 : convertChildrenW ([] : List SnootyNode) 1 none = Conv.empty := by
    rw [convertChildrenW.eq_def]
  have h : convertNodeW (.mk "heading" {depth := some 9} [] none []) 1 none
      = ⟨[.heading 9 []], [], []⟩ := by
    rw [convertNodeW.eq_def]
    simp [h0, Conv.empty]
  refine ⟨h, ?_⟩
  rw [h]
  rfl

/-- C3 counterexample: the inline-run normalizer is not idempotent. On
    `[paragraph [text "x"]]` one pass wraps the paragraph's inline child
    into a nested paragraph, and a second pass wraps it again: running the
    pass twice yields a tree different from running it once. -/
theorem wrapInlineRuns_not_idempotent :
    wrapInlineRuns (wrapInlineRuns [MdastNode.paragraph [.text "x"]])
      ≠ wrapInlineRuns [MdastNode.paragraph [.text "x"]] := by
  have hw0 : wrapInlineRuns ([] : List MdastNode) = [] := by
    rw [wrapInlineRuns.eq_def]
  have hwt : wrapInlineRuns [MdastNode.text "x"] = [.paragraph [.text "x"]] := by
    rw [wrapInlineRuns.eq_def]
    simp [isInlineMd, List.takeWhile, List.dropWhile, hw0]
  have hw1 : wrapInlineRuns [MdastNode.paragraph [.text "x"]]
      = [.paragraph [.paragraph [.text "x"]]] := by
    rw [wrapInlineRuns.eq_def]
    simp [isInlineMd, hasChildrenMd, setChildrenMd, childrenMd, hwt, hw0]
  have hw2 : wrapInlineRuns [MdastNode.paragraph [.paragraph [.text "x"]]]
      = [.paragraph [.paragraph [.paragraph [.text "x"]]]] := by
    rw [wrapInlineRuns.eq_def]
    simp [isInlineMd, hasChildrenMd, setChildrenMd, childrenMd, hw1, hw0]
  rw [hw1, hw2]
  intro h
  simp at h

end SnootyMdx